import Mathlib

/-
Verification of the 2D HP-lattice protein folding sampler (hp.py, moves.py,
monte_carlo.py, remc.py).

The Python source is shallowly embedded: pure functions become Lean
functions; the NumPy random stream is abstracted by explicit oracle
parameters (shuffle functions and draw sequences) so that every theorem
quantifies over all possible resolutions of the randomness; floating-point
quantities that only feed comparisons (the Metropolis exponential, the
exchange acceptance threshold) are modelled over ℝ, while float parameters
that the code manipulates exactly (rho, temperatures) are modelled over ℚ.
Fallible code (the move-mode check, which is the only `raise` reachable
from the drivers) is modelled with `Except`.
-/

/-! ## Lattice primitives (hp.py) -/

/-- Coordinate: pair of signed integers, as in hp.py (`Coord = Tuple[int, int]`). -/
abbrev Coord := Int × Int

/-- hp.py `manhattan(p, q) = abs(p[0]-q[0]) + abs(p[1]-q[1])`.
The Python value is a nonnegative int, modelled as `Nat`. -/
def manhattan (p q : Coord) : Nat :=
  (p.1 - q.1).natAbs + (p.2 - q.2).natAbs

/-- hp.py `neighbours4((x,y)) = [(x+1,y),(x-1,y),(x,y+1),(x,y-1)]`. -/
def neighbours4 (p : Coord) : List Coord :=
  [(p.1 + 1, p.2), (p.1 - 1, p.2), (p.1, p.2 + 1), (p.1, p.2 - 1)]

/-- hp.py `is_self_avoiding`: all coordinates distinct and every consecutive
pair at Manhattan distance 1. -/
def is_self_avoiding (coords : List Coord) : Bool :=
  decide coords.Nodup &&
    (List.range (coords.length - 1)).all
      (fun i => manhattan (coords.getD i (0, 0)) (coords.getD (i + 1) (0, 0)) == 1)

/-- hp.py `initial_line(n) = [(i, 0) for i in range(n)]`. -/
def initial_line (n : Nat) : List Coord :=
  (List.range n).map (fun i => ((i : Int), 0))

/-! ## Energy evaluator (hp.py `energy_hp`) -/

/-- The occupancy dictionary `occ = {coords[i]: i for i in range(len(coords))}`
of energy_hp, looked up at a cell: a Python dict comprehension keeps the last
binding for duplicated keys, hence the left fold. -/
def occGet (coords : List Coord) (c : Coord) : Option Nat :=
  (List.range coords.length).foldl
    (fun acc i => if coords.getD i (0, 0) = c then some i else acc) none

/-- Contribution of one inspected neighbour cell `nb` in energy_hp's inner
loop for residue `i`: `-1` when the cell is occupied by an H residue `j`
that is not a chain neighbour of `i` and satisfies `j > i`, else `0`. -/
def nbContrib (coords : List Coord) (hp : List Char) (i : Nat) (nb : Coord) : Int :=
  match occGet coords nb with
  | none => 0
  | some j =>
      if hp.getD j ' ' ≠ 'H' then 0
      else if ((i : Int) - (j : Int)).natAbs = 1 then 0
      else if i < j then -1 else 0

/-- hp.py `energy_hp(coords, hp_seq)`: the loop `for i, p in enumerate(coords)`
accumulates `E -= 1` per qualifying neighbour; the accumulation is written as
the sum of the per-iteration contributions. -/
def energy_hp (coords : List Coord) (hp : List Char) : Int :=
  ((List.range coords.length).map (fun i =>
    if hp.getD i ' ' ≠ 'H' then 0
    else ((neighbours4 (coords.getD i (0, 0))).map (nbContrib coords hp i)).sum)).sum

/-- The spec's defining set for the energy:
`{(i, j) : i < j, j > i+1, S[i] = S[j] = H, manhattan(C[i], C[j]) = 1}`. -/
def specContactSet (coords : List Coord) (hp : List Char) : Finset (Nat × Nat) :=
  (Finset.range coords.length ×ˢ Finset.range coords.length).filter
    (fun q => q.1 < q.2 ∧ q.1 + 1 < q.2 ∧
      hp.getD q.1 ' ' = 'H' ∧ hp.getD q.2 ' ' = 'H' ∧
      manhattan (coords.getD q.1 (0, 0)) (coords.getD q.2 (0, 0)) = 1)

/-! ### Basic lemmas about the primitives -/

theorem mem_neighbours4 {p q : Coord} : q ∈ neighbours4 p ↔ manhattan p q = 1 := by
  rcases p with ⟨px, py⟩
  rcases q with ⟨qx, qy⟩
  simp only [neighbours4, manhattan, List.mem_cons, List.not_mem_nil, or_false,
    Prod.mk.injEq]
  omega

theorem neighbours4_nodup (p : Coord) : (neighbours4 p).Nodup := by
  rcases p with ⟨px, py⟩
  simp only [neighbours4, List.nodup_cons, List.mem_cons, List.not_mem_nil, or_false,
    List.nodup_nil, and_true, true_and, Prod.mk.injEq, not_or, not_and, not_false_iff]
  omega

theorem list_sum_nonpos {l : List Int} (h : ∀ x ∈ l, x ≤ 0) : l.sum ≤ 0 := by
  induction l with
  | nil => simp
  | cons a l ih =>
      simp only [List.sum_cons]
      have ha := h a (List.mem_cons_self a l)
      have hl := ih (fun x hx => h x (List.mem_cons_of_mem a hx))
      omega

theorem nbContrib_nonpos (coords : List Coord) (hp : List Char) (i : Nat) (nb : Coord) :
    nbContrib coords hp i nb ≤ 0 := by
  unfold nbContrib
  rcases occGet coords nb with _ | j
  · exact le_refl 0
  · dsimp only
    split
    · exact le_refl 0
    · split
      · exact le_refl 0
      · split <;> omega

theorem energy_hp_nonpos (coords : List Coord) (hp : List Char) :
    energy_hp coords hp ≤ 0 := by
  unfold energy_hp
  apply list_sum_nonpos
  intro x hx
  simp only [List.mem_map] at hx
  obtain ⟨i, _, rfl⟩ := hx
  split
  · exact le_refl 0
  · apply list_sum_nonpos
    intro y hy
    simp only [List.mem_map] at hy
    obtain ⟨nb, _, rfl⟩ := hy
    exact nbContrib_nonpos coords hp i nb

/-! ### Characterisation of the occupancy lookup -/

theorem occ_foldl_spec (coords : List Coord) (c : Coord) :
    ∀ (l : List Nat) (acc : Option Nat) (j : Nat),
      l.foldl (fun a i => if coords.getD i (0, 0) = c then some i else a) acc = some j →
      (j ∈ l ∧ coords.getD j (0, 0) = c) ∨ acc = some j := by
  intro l
  induction l with
  | nil => intro acc j h; right; exact h
  | cons a l ih =>
      intro acc j h
      simp only [List.foldl_cons] at h
      rcases ih _ j h with ⟨hm, hc⟩ | hacc
      · left; exact ⟨List.mem_cons_of_mem _ hm, hc⟩
      · by_cases hca : coords.getD a (0, 0) = c
        · rw [if_pos hca] at hacc
          injection hacc with h2
          subst h2
          left; exact ⟨List.mem_cons_self _ _, hca⟩
        · rw [if_neg hca] at hacc; right; exact hacc

theorem occ_foldl_isSome (coords : List Coord) (c : Coord) :
    ∀ (l : List Nat) (acc : Option Nat),
      ((∃ i ∈ l, coords.getD i (0, 0) = c) ∨ ∃ j, acc = some j) →
      ∃ j, l.foldl (fun a i => if coords.getD i (0, 0) = c then some i else a) acc = some j := by
  intro l
  induction l with
  | nil =>
      rintro acc (⟨i, hi, _⟩ | hj)
      · exact absurd hi (List.not_mem_nil i)
      · simpa using hj
  | cons a l ih =>
      rintro acc (⟨i, hi, hc⟩ | ⟨j, rfl⟩)
      · rcases List.mem_cons.mp hi with rfl | hi2
        · refine ih _ (Or.inr ⟨i, ?_⟩)
          show (if coords.getD i (0, 0) = c then some i else acc) = some i
          rw [if_pos hc]
        · exact ih _ (Or.inl ⟨i, hi2, hc⟩)
      · apply ih _
        right
        by_cases hca : coords.getD a (0, 0) = c
        · refine ⟨a, ?_⟩
          show (if coords.getD a (0, 0) = c then some a else some j) = some a
          rw [if_pos hca]
        · refine ⟨j, ?_⟩
          show (if coords.getD a (0, 0) = c then some a else some j) = some j
          rw [if_neg hca]

theorem occGet_none_iff (coords : List Coord) (c : Coord) :
    occGet coords c = none ↔ ∀ j, j < coords.length → coords.getD j (0, 0) ≠ c := by
  constructor
  · intro h j hj hc
    obtain ⟨j2, hj2⟩ :=
      occ_foldl_isSome coords c (List.range coords.length) none
        (Or.inl ⟨j, List.mem_range.mpr hj, hc⟩)
    rw [occGet] at h
    rw [h] at hj2
    exact Option.noConfusion hj2
  · intro h
    cases hocc : occGet coords c with
    | none => rfl
    | some j =>
        rcases occ_foldl_spec coords c (List.range coords.length) none j hocc with ⟨hm, hc⟩ | habs
        · exact absurd hc (h j (List.mem_range.mp hm))
        · exact Option.noConfusion habs

theorem occGet_some_iff (coords : List Coord) (h : coords.Nodup) (c : Coord) (j : Nat) :
    occGet coords c = some j ↔ j < coords.length ∧ coords.getD j (0, 0) = c := by
  constructor
  · intro hocc
    rcases occ_foldl_spec coords c (List.range coords.length) none j hocc with ⟨hm, hc⟩ | habs
    · exact ⟨List.mem_range.mp hm, hc⟩
    · exact Option.noConfusion habs
  · rintro ⟨hj, hc⟩
    obtain ⟨j2, hj2⟩ :=
      occ_foldl_isSome coords c (List.range coords.length) none
        (Or.inl ⟨j, List.mem_range.mpr hj, hc⟩)
    have hj2p := occ_foldl_spec coords c (List.range coords.length) none j2 hj2
    rcases hj2p with ⟨hm2, hc2⟩ | habs
    · have hlt2 := List.mem_range.mp hm2
      have e1 : coords[j] = coords[j2] := by
        rw [← List.getD_eq_getElem coords (0, 0) hj, ← List.getD_eq_getElem coords (0, 0) hlt2,
          hc, hc2]
      have : j = j2 := h.getElem_inj_iff.mp e1
      rw [occGet, hj2, this]
    · exact Option.noConfusion habs

theorem list_range_map_sum (n : Nat) (f : Nat → Int) :
    ((List.range n).map f).sum = ∑ i ∈ Finset.range n, f i := by
  induction n with
  | zero => simp
  | succ n ih =>
      rw [List.range_succ, List.map_append, List.sum_append, Finset.sum_range_succ, ih]
      simp

theorem nbContrib_eq_neg_card (coords : List Coord) (hp : List Char) (h : coords.Nodup)
    (i : Nat) (nb : Coord) :
    nbContrib coords hp i nb =
      -(((Finset.range coords.length).filter (fun j => coords.getD j (0, 0) = nb ∧
          hp.getD j ' ' = 'H' ∧ ((i : Int) - (j : Int)).natAbs ≠ 1 ∧ i < j)).card : Int) := by
  cases hocc : occGet coords nb with
  | none =>
      have hempty : (Finset.range coords.length).filter (fun j => coords.getD j (0, 0) = nb ∧
          hp.getD j ' ' = 'H' ∧ ((i : Int) - (j : Int)).natAbs ≠ 1 ∧ i < j) = ∅ := by
        apply Finset.filter_eq_empty_iff.mpr
        intro j hj hcond
        exact (occGet_none_iff coords nb).mp hocc j (Finset.mem_range.mp hj) hcond.1
      rw [hempty]
      simp only [nbContrib, hocc, Finset.card_empty, Nat.cast_zero, neg_zero]
  | some j0 =>
      obtain ⟨hj0lt, hj0c⟩ := (occGet_some_iff coords h nb j0).mp hocc
      have huniq : ∀ j, j < coords.length → coords.getD j (0, 0) = nb → j = j0 := by
        intro j hj hc
        have e1 : coords[j] = coords[j0] := by
          rw [← List.getD_eq_getElem coords (0, 0) hj, ← List.getD_eq_getElem coords (0, 0) hj0lt,
            hc, hj0c]
        exact h.getElem_inj_iff.mp e1
      have hfilter : (Finset.range coords.length).filter (fun j => coords.getD j (0, 0) = nb ∧
          hp.getD j ' ' = 'H' ∧ ((i : Int) - (j : Int)).natAbs ≠ 1 ∧ i < j) =
          if hp.getD j0 ' ' = 'H' ∧ ((i : Int) - (j0 : Int)).natAbs ≠ 1 ∧ i < j0
          then {j0} else ∅ := by
        ext j
        simp only [Finset.mem_filter, Finset.mem_range]
        constructor
        · rintro ⟨hjlt, hc, hrest⟩
          have hjj0 := huniq j hjlt hc
          subst hjj0
          rw [if_pos hrest]
          exact Finset.mem_singleton_self j
        · intro hj
          by_cases hcond : hp.getD j0 ' ' = 'H' ∧ ((i : Int) - (j0 : Int)).natAbs ≠ 1 ∧ i < j0
          · rw [if_pos hcond] at hj
            have hjj0 := Finset.mem_singleton.mp hj
            subst hjj0
            exact ⟨hj0lt, hj0c, hcond⟩
          · rw [if_neg hcond] at hj
            exact absurd hj (Finset.not_mem_empty j)
      rw [hfilter]
      simp only [nbContrib, hocc]
      by_cases h1 : hp.getD j0 ' ' = 'H' <;>
        by_cases h2 : ((i : Int) - (j0 : Int)).natAbs = 1 <;>
          by_cases h3 : i < j0 <;>
            simp [h1, h2, h3] <;> (split <;> simp)


theorem inner_sum_eq_neg_card (coords : List Coord) (hp : List Char) (h : coords.Nodup)
    (i : Nat) :
    ((neighbours4 (coords.getD i (0, 0))).map (nbContrib coords hp i)).sum =
      -(((Finset.range coords.length).filter (fun j =>
          manhattan (coords.getD i (0, 0)) (coords.getD j (0, 0)) = 1 ∧
          hp.getD j ' ' = 'H' ∧ ((i : Int) - (j : Int)).natAbs ≠ 1 ∧ i < j)).card : Int) := by
  have hnd := neighbours4_nodup (coords.getD i (0, 0))
  rw [← List.sum_toFinset _ hnd]
  rw [Finset.sum_congr rfl (fun nb _ => nbContrib_eq_neg_card coords hp h i nb)]
  rw [Finset.sum_neg_distrib]
  congr 1
  have hcard : ((Finset.range coords.length).filter (fun j =>
      manhattan (coords.getD i (0, 0)) (coords.getD j (0, 0)) = 1 ∧
      hp.getD j ' ' = 'H' ∧ ((i : Int) - (j : Int)).natAbs ≠ 1 ∧ i < j)).card =
      ∑ nb ∈ (neighbours4 (coords.getD i (0, 0))).toFinset,
        (((Finset.range coords.length).filter (fun j =>
          manhattan (coords.getD i (0, 0)) (coords.getD j (0, 0)) = 1 ∧
          hp.getD j ' ' = 'H' ∧ ((i : Int) - (j : Int)).natAbs ≠ 1 ∧ i < j)).filter
            (fun j => coords.getD j (0, 0) = nb)).card := by
    apply Finset.card_eq_sum_card_fiberwise
    intro j hj
    simp only [Finset.mem_filter] at hj
    exact List.mem_toFinset.mpr (mem_neighbours4.mpr hj.2.1)
  rw [hcard]
  push_cast
  apply Finset.sum_congr rfl
  intro nb hnb
  congr 1
  congr 1
  ext j
  constructor
  · intro hj
    have ha := Finset.mem_filter.mp hj
    have hrange := Finset.mem_range.mp ha.1
    refine Finset.mem_filter.mpr ⟨Finset.mem_filter.mpr ⟨ha.1, ?_, ha.2.2.1, ha.2.2.2.1,
      ha.2.2.2.2⟩, ha.2.1⟩
    rw [ha.2.1]
    exact mem_neighbours4.mp (List.mem_toFinset.mp hnb)
  · intro hj
    have ha := Finset.mem_filter.mp hj
    have hb := Finset.mem_filter.mp ha.1
    exact Finset.mem_filter.mpr ⟨hb.1, ha.2, hb.2.2.1, hb.2.2.2.1, hb.2.2.2.2⟩

theorem energy_hp_eq_neg_card (coords : List Coord) (hp : List Char) (h : coords.Nodup) :
    energy_hp coords hp = -((specContactSet coords hp).card : Int) := by
  rw [energy_hp, list_range_map_sum]
  have hcard : (specContactSet coords hp).card =
      ∑ i ∈ Finset.range coords.length,
        ((specContactSet coords hp).filter (fun q => q.1 = i)).card := by
    apply Finset.card_eq_sum_card_fiberwise
    intro q hq
    simp only [specContactSet, Finset.mem_filter, Finset.mem_product, Finset.mem_range] at hq
    exact Finset.mem_range.mpr hq.1.1
  have hfiber : ∀ i ∈ Finset.range coords.length,
      ((specContactSet coords hp).filter (fun q => q.1 = i)).card =
        (if hp.getD i ' ' ≠ 'H' then 0 else
          ((Finset.range coords.length).filter (fun j =>
            manhattan (coords.getD i (0, 0)) (coords.getD j (0, 0)) = 1 ∧
            hp.getD j ' ' = 'H' ∧ ((i : Int) - (j : Int)).natAbs ≠ 1 ∧ i < j)).card) := by
    intro i _
    by_cases hH : hp.getD i ' ' = 'H'
    · rw [if_neg (not_not_intro hH)]
      apply Finset.card_bij (fun q _ => q.2)
      · intro q hq
        simp only [specContactSet, Finset.mem_filter, Finset.mem_product,
          Finset.mem_range] at hq
        obtain ⟨⟨⟨_, hj⟩, hlt, hgt, _, hHj, hman⟩, hfst⟩ := hq
        subst hfst
        simp only [Finset.mem_filter, Finset.mem_range]
        exact ⟨hj, hman, hHj, by omega, hlt⟩
      · intro a ha b hb hab
        simp only [specContactSet, Finset.mem_filter] at ha hb
        have h1 := ha.2
        have h2 := hb.2
        cases a
        cases b
        simp only at h1 h2 hab
        subst h1
        subst h2
        subst hab
        rfl
      · intro j hj
        simp only [Finset.mem_filter, Finset.mem_range] at hj
        obtain ⟨hjlt, hman, hHj, hne, hltij⟩ := hj
        refine ⟨(i, j), ?_, rfl⟩
        simp only [specContactSet, Finset.mem_filter, Finset.mem_product, Finset.mem_range]
        refine ⟨⟨⟨by omega, hjlt⟩, hltij, by omega, hH, hHj, hman⟩, trivial⟩
    · rw [if_pos hH]
      have : (specContactSet coords hp).filter (fun q => q.1 = i) = ∅ := by
        apply Finset.filter_eq_empty_iff.mpr
        intro q hq hfst
        simp only [specContactSet, Finset.mem_filter, Finset.mem_product,
          Finset.mem_range] at hq
        exact hH (hfst ▸ hq.2.2.2.1)
      rw [this, Finset.card_empty]
  calc ∑ i ∈ Finset.range coords.length,
        (if hp.getD i ' ' ≠ 'H' then 0 else
          ((neighbours4 (coords.getD i (0, 0))).map (nbContrib coords hp i)).sum)
      = ∑ i ∈ Finset.range coords.length,
          -(((specContactSet coords hp).filter (fun q => q.1 = i)).card : Int) := by
        apply Finset.sum_congr rfl
        intro i hi
        rw [hfiber i hi]
        by_cases hH : hp.getD i ' ' = 'H'
        · rw [if_neg (not_not_intro hH), if_neg (not_not_intro hH)]
          exact inner_sum_eq_neg_card coords hp h i
        · rw [if_pos hH, if_pos hH]
          simp
    _ = -((specContactSet coords hp).card : Int) := by
        rw [Finset.sum_neg_distrib, hcard]
        push_cast
        rfl

/-! ### Translation invariance of the energy (spec §8 property 9) -/

/-- Translation of a coordinate by a fixed vector, used to state the spec's
translation-invariance property. -/
def shiftCoord (d : Coord) (p : Coord) : Coord := (p.1 + d.1, p.2 + d.2)

theorem foldl_congr_mem {α β : Type} (l : List β) (f g : α → β → α) (acc : α)
    (h : ∀ acc2 i, i ∈ l → f acc2 i = g acc2 i) : l.foldl f acc = l.foldl g acc := by
  induction l generalizing acc with
  | nil => rfl
  | cons a l ih =>
      simp only [List.foldl_cons]
      rw [h acc a (List.mem_cons_self a l)]
      exact ih _ (fun acc2 i hi => h acc2 i (List.mem_cons_of_mem a hi))

theorem shiftCoord_inj (d : Coord) {p q : Coord} : shiftCoord d p = shiftCoord d q ↔ p = q := by
  rcases p with ⟨px, py⟩
  rcases q with ⟨qx, qy⟩
  simp only [shiftCoord, Prod.mk.injEq]
  omega

theorem getD_map_shiftCoord (d : Coord) (coords : List Coord) (i : Nat)
    (hi : i < coords.length) :
    (coords.map (shiftCoord d)).getD i (0, 0) = shiftCoord d (coords.getD i (0, 0)) := by
  rw [List.getD_eq_getElem _ _ (by simpa using hi), List.getD_eq_getElem _ _ hi,
    List.getElem_map]

theorem occGet_shiftCoord (d : Coord) (coords : List Coord) (c : Coord) :
    occGet (coords.map (shiftCoord d)) (shiftCoord d c) = occGet coords c := by
  unfold occGet
  rw [List.length_map]
  apply foldl_congr_mem
  intro acc2 i hi
  have hlt := List.mem_range.mp hi
  rw [getD_map_shiftCoord d coords i hlt]
  by_cases hc : coords.getD i (0, 0) = c
  · rw [if_pos hc, if_pos (by rw [hc])]
  · rw [if_neg hc, if_neg (fun habs => hc ((shiftCoord_inj d).mp habs))]

theorem neighbours4_shiftCoord (d p : Coord) :
    neighbours4 (shiftCoord d p) = (neighbours4 p).map (shiftCoord d) := by
  rcases p with ⟨px, py⟩
  rcases d with ⟨dx, dy⟩
  simp only [neighbours4, shiftCoord, List.map_cons, List.map_nil, List.cons.injEq,
    Prod.mk.injEq, and_true, true_and]
  omega

theorem nbContrib_shiftCoord (d : Coord) (coords : List Coord) (hp : List Char) (i : Nat)
    (nb : Coord) :
    nbContrib (coords.map (shiftCoord d)) hp i (shiftCoord d nb) = nbContrib coords hp i nb := by
  unfold nbContrib
  rw [occGet_shiftCoord]

theorem energy_hp_shiftCoord (coords : List Coord) (hp : List Char) (d : Coord) :
    energy_hp (coords.map (shiftCoord d)) hp = energy_hp coords hp := by
  unfold energy_hp
  rw [List.length_map]
  congr 1
  apply List.map_congr_left
  intro i hi
  have hlt := List.mem_range.mp hi
  by_cases hH : hp.getD i ' ' = 'H'
  · rw [if_neg (not_not_intro hH), if_neg (not_not_intro hH)]
    rw [getD_map_shiftCoord d coords i hlt, neighbours4_shiftCoord, List.map_map]
    congr 1
    apply List.map_congr_left
    intro nb _
    exact nbContrib_shiftCoord d coords hp i nb
  · rw [if_pos hH, if_pos hH]

/-! ## Move engine (moves.py `MovesEngine`) -/

/-- Oracle abstracting the NumPy random stream used by moves.py: one field per
shuffle / permutation call site (loop-indexed call sites take the loop index).
Theorems quantify over all oracles, hence over every outcome of the stream. -/
structure MoveOracle where
  kinds : List String → List String
  endOrder : List Nat → List Nat
  endCands : Nat → List Coord → List Coord
  cornerOrder : List Nat → List Nat
  cornerCands : Nat → List Coord → List Coord
  crankOrder : List Nat → List Nat
  pullIs : List Nat → List Nat
  pullShifts : Nat → List (Int × Int) → List (Int × Int)

/-- Candidate list of the end sub-move of `_attempt_vshd` (before the shuffle):
neighbours of the anchor that are free or equal to the current end position,
minus the current end position.  Faithful for chains of length ≥ 2 (the §3
domain): Python indexes `coords[1]` / `coords[n-2]`, which raises IndexError
on shorter chains, while `getD` makes the model total there, so no theorem
asserts behaviour for chains shorter than 2. -/
def endCandidates (coords : List Coord) (end_idx : Nat) : List Coord :=
  let n := coords.length
  let nb_of := if end_idx = 0 then 1 else n - 2
  let anchor := coords.getD nb_of (0, 0)
  let candidates := (neighbours4 anchor).filter
    (fun p => decide (p ∉ coords) || decide (p = coords.getD end_idx (0, 0)))
  candidates.filter (fun p => decide (p ≠ coords.getD end_idx (0, 0)))

/-- End sub-move for one end index: place the end at the first candidate that
gives a self-avoiding chain (`if is_self_avoiding(newc): return newc`). -/
def tryEnd (coords : List Coord) (end_idx : Nat) (cands : List Coord) :
    Option (List Coord) :=
  cands.findSome? (fun cand =>
    let newc := coords.set end_idx cand
    if is_self_avoiding newc then some newc else none)

/-- The end kind of `_attempt_vshd`: both ends in oracle order. -/
def attemptEndMove (O : MoveOracle) (coords : List Coord) : Option (List Coord) :=
  (O.endOrder [0, coords.length - 1]).findSome? (fun e =>
    tryEnd coords e (O.endCands e (endCandidates coords e)))

/-- Candidate list of the corner sub-move at interior index `i`: common
neighbours of `C[i-1]` and `C[i+1]`, free or current, minus
`C[i-1]`, `C[i+1]`, `C[i]`. -/
def cornerCandidates (coords : List Coord) (i : Nat) : List Coord :=
  let im1 := coords.getD (i - 1) (0, 0)
  let ip1 := coords.getD (i + 1) (0, 0)
  let inter := (neighbours4 im1).filter (fun c => decide (c ∈ neighbours4 ip1))
  let cands := inter.filter
    (fun c => decide (c ∉ coords) || decide (c = coords.getD i (0, 0)))
  cands.filter (fun c =>
    decide (c ≠ im1) && decide (c ≠ ip1) && decide (c ≠ coords.getD i (0, 0)))

/-- The corner kind of `_attempt_vshd`: interior indices and candidates in
oracle order, first self-avoiding relocation wins. -/
def attemptCornerMove (O : MoveOracle) (coords : List Coord) : Option (List Coord) :=
  (O.cornerOrder (List.range' 1 (coords.length - 2))).findSome? (fun i =>
    (O.cornerCands i (cornerCandidates coords i)).findSome? (fun cand =>
      let newc := coords.set i cand
      if is_self_avoiding newc then some newc else none))

/-- Crankshaft sub-move of `_attempt_vshd` at offset `k`: requires the four
consecutive residues locally connected with `manhattan(C[k], C[k+3]) = 2`,
flips the two middle residues (`//` is Python floor division, `Int.fdiv`). -/
def attemptCrankAt (coords : List Coord) (k : Nat) : Option (List Coord) :=
  let p0 := coords.getD k (0, 0)
  let p1 := coords.getD (k + 1) (0, 0)
  let p2 := coords.getD (k + 2) (0, 0)
  let p3 := coords.getD (k + 3) (0, 0)
  if ¬(manhattan p0 p1 = 1 ∧ manhattan p1 p2 = 1 ∧ manhattan p2 p3 = 1) then none
  else if manhattan p0 p3 ≠ 2 then none
  else
    let dx := p3.1 - p0.1
    let dy := p3.2 - p0.2
    let tgt : Option (Coord × Coord) :=
      if dx.natAbs = 2 ∧ dy.natAbs = 0 then
        let midx := Int.fdiv (p0.1 + p3.1) 2
        let dy_flip : Int := if p1.2 = p0.2 then 1 else -1
        some ((midx, p1.2 + dy_flip),
          ((if dx > 0 then midx + 1 else midx - 1), p1.2 + dy_flip))
      else if dx.natAbs = 0 ∧ dy.natAbs = 2 then
        let midy := Int.fdiv (p0.2 + p3.2) 2
        let dx_flip : Int := if p1.1 = p0.1 then 1 else -1
        some ((p1.1 + dx_flip, midy),
          (p1.1 + dx_flip, (if dy > 0 then midy + 1 else midy - 1)))
      else none
    match tgt with
    | none => none
    | some (c1, c2) =>
        if decide (c1 ∉ coords ∨ c1 = p1 ∨ c1 = p2) &&
            decide (c2 ∉ coords ∨ c2 = p1 ∨ c2 = p2) then
          let newc := (coords.set (k + 1) c1).set (k + 2) c2
          if is_self_avoiding newc then some newc else none
        else none

/-- The crankshaft kind of `_attempt_vshd`: offsets `range(0, n-3)` in oracle
order. -/
def attemptCrankMove (O : MoveOracle) (coords : List Coord) : Option (List Coord) :=
  (O.crankOrder (List.range (coords.length - 3))).findSome? (fun k =>
    attemptCrankAt coords k)

/-- moves.py `MovesEngine._attempt_vshd`: the three kinds in oracle order,
first success wins; the `else` of the Python dispatch is the crankshaft
branch. -/
def attempt_vshd (O : MoveOracle) (coords : List Coord) : Option (List Coord) :=
  (O.kinds ["end", "corner", "crankshaft"]).findSome? (fun kind =>
    if kind = "end" then attemptEndMove O coords
    else if kind = "corner" then attemptCornerMove O coords
    else attemptCrankMove O coords)

/-- One iteration of the backward propagation loop of `_attempt_pull`:
`target = old[j+2]`, abort on collision, else free `newc[j]`, move it to
`target`, update the occupancy set. -/
def pullStep (old : List Coord) (j : Nat) (occ : Finset Coord) (newc : List Coord) :
    Option (Finset Coord × List Coord) :=
  let target := old.getD (j + 2) (0, 0)
  if target ∈ occ ∧ target ≠ newc.getD j (0, 0) then none
  else some (insert target (occ.erase (newc.getD j (0, 0))), newc.set j target)

/-- The propagation loop `j = i-2, …, 0` of `_attempt_pull`. -/
def pullPropagate (old : List Coord) : Nat → Finset Coord → List Coord → Option (List Coord)
  | 0, occ, newc =>
      match pullStep old 0 occ newc with
      | none => none
      | some (_, newc2) => some newc2
  | j + 1, occ, newc =>
      match pullStep old (j + 1) occ newc with
      | none => none
      | some (occ2, newc2) => pullPropagate old j occ2 newc2

/-- Pull attempt of `_attempt_pull` for pivot `i` and rotation `s`:
`L = C[i+1] + s`, `C = C[i] + s`; corner shortcut when `C = C[i-1]`
(`i ≥ 1` always holds since `i` ranges over `range(1, n-1)`); otherwise
place `i → L`, `i-1 → C`, stop early if `i-2` is already adjacent, else run
the propagation loop; every exit is gated by `is_self_avoiding`. -/
def attemptPullShift (coords : List Coord) (i : Nat) (s : Int × Int) :
    Option (List Coord) :=
  let pi2 := coords.getD i (0, 0)
  let pip1 := coords.getD (i + 1) (0, 0)
  let L : Coord := (pip1.1 + s.1, pip1.2 + s.2)
  let C : Coord := (pi2.1 + s.1, pi2.2 + s.2)
  if L ∈ coords ∧ L ≠ pi2 then none
  else if C = coords.getD (i - 1) (0, 0) then
    let newc := coords.set i L
    if is_self_avoiding newc then some newc else none
  else if C ∈ coords then none
  else
    let newc0 := (coords.set i L).set (i - 1) C
    if 2 ≤ i ∧ manhattan (newc0.getD (i - 2) (0, 0)) (newc0.getD (i - 1) (0, 0)) = 1 then
      if is_self_avoiding newc0 then some newc0 else none
    else if i < 2 then
      if is_self_avoiding newc0 then some newc0 else none
    else
      let occ1 := (insert C ((insert L coords.toFinset).erase pi2)).erase
        (coords.getD (i - 1) (0, 0))
      match pullPropagate coords (i - 2) occ1 newc0 with
      | none => none
      | some newc2 => if is_self_avoiding newc2 then some newc2 else none

/-- moves.py `MovesEngine._attempt_pull`: `None` for `n < 3`, else pivots
`range(1, n-1)` and the two rotations `(dy, -dx)`, `(-dy, dx)` in oracle
order. -/
def attemptPull (O : MoveOracle) (coords : List Coord) : Option (List Coord) :=
  if coords.length < 3 then none
  else
    (O.pullIs (List.range' 1 (coords.length - 2))).findSome? (fun i =>
      let pi2 := coords.getD i (0, 0)
      let pip1 := coords.getD (i + 1) (0, 0)
      let dx := pip1.1 - pi2.1
      let dy := pip1.2 - pi2.2
      if dx.natAbs + dy.natAbs ≠ 1 then none
      else
        (O.pullShifts i [(dy, -dx), (-dy, dx)]).findSome? (fun s =>
          attemptPullShift coords i s))

/-- moves.py `MovesEngine.attempt_move`: validates the mode (the only `raise`
reachable from the drivers), then dispatches; in hybrid mode the draw
`rng.random() < rho` decides which family is tried first, falling through to
the other on failure. -/
def attempt_move (O : MoveOracle) (rho uCoin : ℚ) (coords : List Coord) (mode : String) :
    Except String (Option (List Coord)) :=
  if mode ≠ "vshd" ∧ mode ≠ "pull" ∧ mode ≠ "hybrid" then
    Except.error "mode de mouvements invalide"
  else if mode = "vshd" then Except.ok (attempt_vshd O coords)
  else if mode = "pull" then Except.ok (attemptPull O coords)
  else
    if uCoin < rho then
      match attemptPull O coords with
      | some res => Except.ok (some res)
      | none => Except.ok (attempt_vshd O coords)
    else
      match attempt_vshd O coords with
      | some res => Except.ok (some res)
      | none => Except.ok (attemptPull O coords)

/-! ### Generic facts about `findSome?` and the self-avoidance gate -/

theorem findSome?_eq_some_exists {α β : Type} {f : α → Option β} :
    ∀ {l : List α} {b : β}, l.findSome? f = some b → ∃ a ∈ l, f a = some b := by
  intro l
  induction l with
  | nil => intro b h; simp [List.findSome?_nil] at h
  | cons a l ih =>
      intro b h
      rw [List.findSome?_cons] at h
      cases hfa : f a with
      | some c =>
          rw [hfa] at h
          refine ⟨a, List.mem_cons_self a l, ?_⟩
          rw [hfa]
          exact h
      | none =>
          rw [hfa] at h
          obtain ⟨x, hx, hfx⟩ := ih h
          exact ⟨x, List.mem_cons_of_mem a hx, hfx⟩

theorem findSome?_preserves {α β : Type} (P : β → Prop) {f : α → Option β}
    (hf : ∀ a b, f a = some b → P b) :
    ∀ {l : List α} {b : β}, l.findSome? f = some b → P b := by
  intro l b h
  obtain ⟨a, _, hfa⟩ := findSome?_eq_some_exists h
  exact hf a b hfa

theorem findSome?_eq_none_of_forall {α β : Type} {f : α → Option β}
    (h : ∀ a, f a = none) : ∀ l : List α, l.findSome? f = none := by
  intro l
  induction l with
  | nil => rfl
  | cons a l ih => rw [List.findSome?_cons, h a, ih]

theorem gate_eq_some {c b : List Coord}
    (h : (if is_self_avoiding c then some c else none) = some b) :
    is_self_avoiding b = true := by
  by_cases hs : is_self_avoiding c
  · rw [if_pos hs] at h
    injection h with h2
    subst h2
    exact hs
  · rw [if_neg hs] at h
    exact Option.noConfusion h

/-! ### C2: the crankshaft guard is unsatisfiable (parity) -/

theorem manhattan_parity (p0 p1 p2 p3 : Coord) (h1 : manhattan p0 p1 = 1)
    (h2 : manhattan p1 p2 = 1) (h3 : manhattan p2 p3 = 1) : manhattan p0 p3 ≠ 2 := by
  rcases p0 with ⟨a, b⟩
  rcases p1 with ⟨c, d⟩
  rcases p2 with ⟨e, f⟩
  rcases p3 with ⟨g, k⟩
  simp only [manhattan] at *
  omega

theorem attemptCrankAt_eq_none (coords : List Coord) (k : Nat) :
    attemptCrankAt coords k = none := by
  unfold attemptCrankAt
  dsimp only
  split
  · rfl
  · rename_i hA
    push_neg at hA
    rw [if_pos (manhattan_parity _ _ _ _ hA.1 hA.2.1 hA.2.2)]

theorem attemptCrankMove_eq_none (O : MoveOracle) (coords : List Coord) :
    attemptCrankMove O coords = none := by
  unfold attemptCrankMove
  exact findSome?_eq_none_of_forall (fun a => attemptCrankAt_eq_none coords a) _

/-! ### Every proposal passes the final self-avoidance gate -/

theorem tryEnd_some {coords b : List Coord} {e : Nat} {cands : List Coord}
    (h : tryEnd coords e cands = some b) : is_self_avoiding b = true := by
  unfold tryEnd at h
  exact findSome?_preserves (fun c => is_self_avoiding c = true) (fun cand b2 hc => gate_eq_some hc) h

theorem attemptEndMove_some {O : MoveOracle} {coords b : List Coord}
    (h : attemptEndMove O coords = some b) : is_self_avoiding b = true := by
  unfold attemptEndMove at h
  exact findSome?_preserves (fun c => is_self_avoiding c = true) (fun e b2 he => tryEnd_some he) h

theorem attemptCornerMove_some {O : MoveOracle} {coords b : List Coord}
    (h : attemptCornerMove O coords = some b) : is_self_avoiding b = true := by
  unfold attemptCornerMove at h
  refine findSome?_preserves (fun c => is_self_avoiding c = true) ?_ h
  intro i b2 hi
  exact findSome?_preserves (fun c => is_self_avoiding c = true) (fun cand b3 hc => gate_eq_some hc) hi

theorem attempt_vshd_some {O : MoveOracle} {coords b : List Coord}
    (h : attempt_vshd O coords = some b) : is_self_avoiding b = true := by
  unfold attempt_vshd at h
  refine findSome?_preserves (fun c => is_self_avoiding c = true) ?_ h
  intro kind b2 hk
  by_cases h1 : kind = "end"
  · rw [if_pos h1] at hk
    exact attemptEndMove_some hk
  · rw [if_neg h1] at hk
    by_cases h2 : kind = "corner"
    · rw [if_pos h2] at hk
      exact attemptCornerMove_some hk
    · rw [if_neg h2] at hk
      rw [attemptCrankMove_eq_none] at hk
      exact Option.noConfusion hk

theorem attemptPullShift_some {coords b : List Coord} {i : Nat} {s : Int × Int}
    (h : attemptPullShift coords i s = some b) : is_self_avoiding b = true := by
  unfold attemptPullShift at h
  dsimp only at h
  split at h
  · exact Option.noConfusion h
  · split at h
    · exact gate_eq_some h
    · split at h
      · exact Option.noConfusion h
      · split at h
        · exact gate_eq_some h
        · split at h
          · exact gate_eq_some h
          · split at h
            · exact Option.noConfusion h
            · exact gate_eq_some h

theorem attemptPull_some {O : MoveOracle} {coords b : List Coord}
    (h : attemptPull O coords = some b) : is_self_avoiding b = true := by
  unfold attemptPull at h
  split at h
  · exact Option.noConfusion h
  · refine findSome?_preserves (fun c => is_self_avoiding c = true) ?_ h
    intro i b2 hi
    dsimp only at hi
    split at hi
    · exact Option.noConfusion hi
    · exact findSome?_preserves (fun c => is_self_avoiding c = true) (fun s b3 hs => attemptPullShift_some hs) hi

theorem attempt_vshd_from_end_or_corner (O : MoveOracle) (coords : List Coord) :
    attempt_vshd O coords = none ∨
      ∃ res, attempt_vshd O coords = some res ∧
        (attemptEndMove O coords = some res ∨ attemptCornerMove O coords = some res) := by
  cases hv : attempt_vshd O coords with
  | none => exact Or.inl rfl
  | some res =>
      right
      refine ⟨res, rfl, ?_⟩
      unfold attempt_vshd at hv
      obtain ⟨kind, _, hk⟩ := findSome?_eq_some_exists hv
      by_cases h1 : kind = "end"
      · rw [if_pos h1] at hk
        exact Or.inl hk
      · rw [if_neg h1] at hk
        by_cases h2 : kind = "corner"
        · rw [if_pos h2] at hk
          exact Or.inr hk
        · rw [if_neg h2] at hk
          rw [attemptCrankMove_eq_none] at hk
          exact Option.noConfusion hk

/-! ## Claim theorems on the move engine and the energy -/

/-- A concrete oracle that applies no shuffling, used to instantiate the
universally quantified theorems at concrete inputs. -/
def idOracle : MoveOracle :=
  { kinds := fun l => l,
    endOrder := fun l => l,
    endCands := fun (_ : Nat) (l : List Coord) => l,
    cornerOrder := fun l => l,
    cornerCands := fun (_ : Nat) (l : List Coord) => l,
    crankOrder := fun l => l,
    pullIs := fun (l : List Nat) => l,
    pullShifts := fun (_ : Nat) (l : List (Int × Int)) => l }

/-- C1: for every conformation satisfying the §3 invariants (connectivity and
self-avoidance, i.e. `is_self_avoiding`, on a chain of length ≥ 2) and every
mode in vshd, pull, hybrid, `attempt_move` returns without raising, and its
result is either no proposal or a conformation again satisfying both
invariants; quantified over all oracles, i.e. over every outcome of the
random stream. -/
theorem C1_attempt_move_preserves_invariants (O : MoveOracle) (rho uCoin : ℚ)
    (coords : List Coord) (mode : String) (hn : 2 ≤ coords.length)
    (hC : is_self_avoiding coords = true)
    (hmode : mode = "vshd" ∨ mode = "pull" ∨ mode = "hybrid") :
    ∃ res, attempt_move O rho uCoin coords mode = Except.ok res ∧
      ∀ newc, res = some newc → is_self_avoiding newc = true := by
  rcases hmode with h | h | h <;> subst h
  · refine ⟨attempt_vshd O coords, rfl, ?_⟩
    intro newc hsome
    exact attempt_vshd_some hsome
  · refine ⟨attemptPull O coords, rfl, ?_⟩
    intro newc hsome
    exact attemptPull_some hsome
  · have hred : attempt_move O rho uCoin coords "hybrid" =
        (if uCoin < rho then
          match attemptPull O coords with
          | some res => Except.ok (some res)
          | none => Except.ok (attempt_vshd O coords)
        else
          match attempt_vshd O coords with
          | some res => Except.ok (some res)
          | none => Except.ok (attemptPull O coords)) := rfl
    rw [hred]
    by_cases hu : uCoin < rho
    · rw [if_pos hu]
      cases hp : attemptPull O coords with
      | some res =>
          exact ⟨some res, rfl, fun newc hs => by
            injection hs with hs2
            subst hs2
            exact attemptPull_some hp⟩
      | none =>
          exact ⟨attempt_vshd O coords, rfl, fun newc hs => attempt_vshd_some hs⟩
    · rw [if_neg hu]
      cases hv : attempt_vshd O coords with
      | some res =>
          exact ⟨some res, rfl, fun newc hs => by
            injection hs with hs2
            subst hs2
            exact attempt_vshd_some hv⟩
      | none =>
          exact ⟨attemptPull O coords, rfl, fun newc hs => attemptPull_some hs⟩

/-- Witness for C1: the straight 2-chain under mode vshd. -/
theorem C1_witness :
    ∃ res, attempt_move idOracle (1 / 2) (3 / 4)
        [((0 : Int), (0 : Int)), (1, 0)] "vshd" = Except.ok res ∧
      ∀ newc, res = some newc → is_self_avoiding newc = true :=
  C1_attempt_move_preserves_invariants idOracle (1 / 2) (3 / 4)
    [(0, 0), (1, 0)] "vshd" (by decide) (by decide) (Or.inl rfl)

/-- C2: the crankshaft sub-move never produces a proposal: its guard
`manhattan(C[k], C[k+3]) = 2` is unsatisfiable after three unit steps
(parity), so `_attempt_vshd` can only return an end or corner proposal. -/
theorem C2_crankshaft_never_proposes :
    (∀ (coords : List Coord) (k : Nat), attemptCrankAt coords k = none) ∧
    (∀ (p0 p1 p2 p3 : Coord), manhattan p0 p1 = 1 → manhattan p1 p2 = 1 →
      manhattan p2 p3 = 1 → manhattan p0 p3 ≠ 2) ∧
    (∀ (O : MoveOracle) (coords : List Coord),
      attempt_vshd O coords = none ∨
        ∃ res, attempt_vshd O coords = some res ∧
          (attemptEndMove O coords = some res ∨ attemptCornerMove O coords = some res)) :=
  ⟨attemptCrankAt_eq_none, manhattan_parity, attempt_vshd_from_end_or_corner⟩

/-- Witness for C2 at four concrete collinear points. -/
theorem C2_witness : manhattan ((0 : Int), (0 : Int)) ((3 : Int), (0 : Int)) ≠ 2 :=
  C2_crankshaft_never_proposes.2.1 (0, 0) (1, 0) (2, 0) (3, 0)
    (by decide) (by decide) (by decide)

/-- C3: for every conformation satisfying the §3 invariants and every HP
sequence of the same length, `energy_hp` equals minus the cardinality of the
spec contact set and is ≤ 0; the U-shape with HHHH has energy -1. -/
theorem C3_energy_matches_spec :
    (∀ (coords : List Coord) (hp : List Char), is_self_avoiding coords = true →
      hp.length = coords.length →
      energy_hp coords hp = -((specContactSet coords hp).card : Int) ∧
        energy_hp coords hp ≤ 0) ∧
    energy_hp [(0, 0), (1, 0), (1, 1), (0, 1)] ['H', 'H', 'H', 'H'] = -1 := by
  constructor
  · intro coords hp hsa _
    rw [is_self_avoiding, Bool.and_eq_true] at hsa
    have hnd : coords.Nodup := of_decide_eq_true hsa.1
    exact ⟨energy_hp_eq_neg_card coords hp hnd, energy_hp_nonpos coords hp⟩
  · decide

/-- Witness for C3 at the U-shape. -/
theorem C3_witness :
    energy_hp [(0, 0), (1, 0), (1, 1), (0, 1)] ['H', 'H', 'H', 'H'] =
        -((specContactSet [(0, 0), (1, 0), (1, 1), (0, 1)] ['H', 'H', 'H', 'H']).card : Int) ∧
      energy_hp [(0, 0), (1, 0), (1, 1), (0, 1)] ['H', 'H', 'H', 'H'] ≤ 0 :=
  C3_energy_matches_spec.1 [(0, 0), (1, 0), (1, 1), (0, 1)] ['H', 'H', 'H', 'H']
    (by decide) (by decide)

/-- C9: the energy evaluator is translation invariant: shifting every
coordinate of any coordinate list by a fixed vector leaves `energy_hp`
unchanged. -/
theorem C9_energy_translation_invariant (coords : List Coord) (hp : List Char)
    (d : Coord) :
    energy_hp (coords.map (shiftCoord d)) hp = energy_hp coords hp :=
  energy_hp_shiftCoord coords hp d

/-- C10 counterexample: the end move at end 0 of `[(0,0),(1,0),(2,0)]` has
two valid candidate placements, not three as claimed. -/
theorem C10_counterexample :
    ¬ (endCandidates [(0, 0), (1, 0), (2, 0)] 0).length = 3 := by decide

/-- C10 amended: the candidate list is exactly `[(1,1),(1,-1)]` (two
placements: the four anchor neighbours minus the current end position and the
occupied cell), and both post-move conformations satisfy the invariants. -/
theorem C10_amended_end_move :
    endCandidates [(0, 0), (1, 0), (2, 0)] 0 = [(1, 1), (1, -1)] ∧
    is_self_avoiding ([(0, 0), (1, 0), (2, 0)].set 0 (1, 1)) = true ∧
    is_self_avoiding ([(0, 0), (1, 0), (2, 0)].set 0 (1, -1)) = true := by decide

/-! ## Metropolis acceptance (monte_carlo.py / remc.py) -/

/-- monte_carlo.py `metropolis_accept(delta_E, T, rng)`: `True` outright when
`delta_E <= 0` (the random stream is not consulted); otherwise the draw
`u = rng.random()` is accepted iff `u < exp(-delta_E / max(T, 1e-12))`.
The float comparison is modelled over ℝ with the draw explicit. -/
def metropolis_accept (delta_E : Int) (T : ℝ) (u : ℝ) : Prop :=
  if delta_E ≤ 0 then True
  else u < Real.exp (-(delta_E : ℝ) / max T (1 / 10 ^ 12))

/-- The same decision as consumed by the drivers: the `ΔE ≤ 0` branch is
deterministic, the `ΔE > 0` float comparison is abstracted by the oracle bit
`u`. -/
def mcAccept (dE : Int) (u : Bool) : Bool :=
  if dE ≤ 0 then true else u

/-! ## Single-chain Metropolis driver (monte_carlo.py `run_mc`) -/

/-- Return record of both drivers (the Python result dict). -/
structure MCResult where
  final_coords : List Coord
  best_coords : List Coord
  energies : List Int
  best_energies : List Int
  best_energy : Int

/-- Mutable state of the run_mc loop. -/
structure MCState where
  coords : List Coord
  E : Int
  best_coords : List Coord
  best_E : Int
  energies : List Int
  best_energies : List Int

/-- One iteration of the run_mc loop: propose, on `None` record the traces
and continue, else evaluate, Metropolis-accept, update the best record on
strict improvement, record the traces. -/
def mcStep (hp : List Char) (mode : String) (rho : ℚ) (O : MoveOracle) (uCoin : ℚ)
    (uAcc : Bool) (st : MCState) : Except String MCState :=
  match attempt_move O rho uCoin st.coords mode with
  | Except.error e => Except.error e
  | Except.ok none =>
      Except.ok { st with energies := st.energies ++ [st.E],
                          best_energies := st.best_energies ++ [st.best_E] }
  | Except.ok (some proposal) =>
      let E_new := energy_hp proposal hp
      let st2 :=
        if mcAccept (E_new - st.E) uAcc then
          { st with coords := proposal, E := E_new,
                    best_E := if E_new < st.best_E then E_new else st.best_E,
                    best_coords := if E_new < st.best_E then proposal else st.best_coords }
        else st
      Except.ok { st2 with energies := st2.energies ++ [st2.E],
                           best_energies := st2.best_energies ++ [st2.best_E] }

/-- The loop `for t in range(steps)` of run_mc, per-step oracles indexed by
the step counter. -/
def mcLoop (hp : List Char) (mode : String) (rho : ℚ) (Ost : Nat → MoveOracle)
    (uCoin : Nat → ℚ) (uAcc : Nat → Bool) : Nat → Nat → MCState → Except String MCState
  | _, 0, st => Except.ok st
  | t, k + 1, st =>
      match mcStep hp mode rho (Ost t) (uCoin t) (uAcc t) st with
      | Except.error e => Except.error e
      | Except.ok st2 => mcLoop hp mode rho Ost uCoin uAcc (t + 1) k st2

/-- monte_carlo.py `run_mc`: steps clipped by `min(steps, 10_000)` (a negative
count gives an empty `range`, hence `toNat`), initial straight-line chain;
`temperature` reaches only the float acceptance comparison, abstracted by the
per-step bit `uAcc`. -/
def run_mc (hp : List Char) (steps : Int) (temperature : ℚ) (mode : String) (rho : ℚ)
    (Ost : Nat → MoveOracle) (uCoin : Nat → ℚ) (uAcc : Nat → Bool) :
    Except String MCResult :=
  let steps2 := (min steps 10000).toNat
  let coords0 := initial_line hp.length
  let E0 := energy_hp coords0 hp
  let st0 : MCState := ⟨coords0, E0, coords0, E0, [], []⟩
  (mcLoop hp mode rho Ost uCoin uAcc 0 steps2 st0).map (fun st =>
    ⟨st.coords, st.best_coords, st.energies, st.best_energies, st.best_E⟩)

/-! ## Replica exchange driver (remc.py `run_remc`) -/

/-- The three replica arrays of run_remc: conformations, energies,
temperatures.  The exchange code assigns only the first two. -/
structure ReplicaArrays where
  cs : List (List Coord)
  Es : List Int
  ts : List ℚ

/-- One adjacent-pair exchange of run_remc:
`delta = (1/T_j - 1/T_i) * (E_i - E_j)`, `acc = 1.0 if delta >= 0 else
exp(delta)`, accepted iff `rng.random() < acc` (comparison abstracted by
`exAcc`, see the C6 theorem); on acceptance `(C_i, E_i)` and `(C_j, E_j)`
are swapped. -/
def exchangePair (exAcc : Nat → ℚ → Bool) (i : Nat) (a : ReplicaArrays) : ReplicaArrays :=
  let j := i + 1
  let Ei := a.Es.getD i 0
  let Ej := a.Es.getD j 0
  let Ti := a.ts.getD i 0
  let Tj := a.ts.getD j 0
  let delta := (1 / Tj - 1 / Ti) * ((Ei : ℚ) - (Ej : ℚ))
  if exAcc i delta then
    { a with cs := (a.cs.set i (a.cs.getD j [])).set j (a.cs.getD i []),
             Es := (a.Es.set i Ej).set j Ei }
  else a

/-- The exchange sweep `for i in range(start, n_replicas - 1, 2)`. -/
def exchangeSweep (exAcc : Nat → ℚ → Bool) (start nReplicas : Nat)
    (a : ReplicaArrays) : ReplicaArrays :=
  (List.range' start ((nReplicas - start) / 2) 2).foldl
    (fun acc i => exchangePair exAcc i acc) a

/-- Mutable state of the run_remc loop. -/
structure RemcState where
  arrays : ReplicaArrays
  best_E : Int
  best_coords : List Coord
  energies : List Int
  best_energies : List Int
  even : Bool

/-- Body of the `for r in range(n_replicas)` move pass: propose for replica
`r`, Metropolis-accept under its temperature (bit `uAcc r`), update the
global best on strict improvement. -/
def remcMoveOne (hp : List Char) (mode : String) (rho : ℚ) (Or : Nat → MoveOracle)
    (uCoin : Nat → ℚ) (uAcc : Nat → Bool) (st : RemcState) (r : Nat) :
    Except String RemcState :=
  match attempt_move (Or r) rho (uCoin r) (st.arrays.cs.getD r []) mode with
  | Except.error e => Except.error e
  | Except.ok none => Except.ok st
  | Except.ok (some prop) =>
      let E_new := energy_hp prop hp
      if mcAccept (E_new - st.arrays.Es.getD r 0) (uAcc r) then
        Except.ok { st with
          arrays := { st.arrays with cs := st.arrays.cs.set r prop,
                                     Es := st.arrays.Es.set r E_new },
          best_E := if E_new < st.best_E then E_new else st.best_E,
          best_coords := if E_new < st.best_E then prop else st.best_coords }
      else Except.ok st

/-- The move pass over all replicas at one step. -/
def remcMovePass (hp : List Char) (mode : String) (rho : ℚ) (Or : Nat → MoveOracle)
    (uCoin : Nat → ℚ) (uAcc : Nat → Bool) (nReplicas : Nat) (st : RemcState) :
    Except String RemcState :=
  (List.range nReplicas).foldlM (remcMoveOne hp mode rho Or uCoin uAcc) st

/-- One iteration of `for step in range(1, steps + 1)` of run_remc: move pass,
trace appends (coldest replica energy, global best), then an exchange sweep
when `step % exchange_every == 0`, alternating even/odd pair starts.  Faithful
for exchange_every ≥ 1: Python's `step % exchange_every` raises
ZeroDivisionError at 0, while `Nat.mod` makes the model total there, so no
theorem asserts behaviour at exchange_every = 0. -/
def remcStep (hp : List Char) (mode : String) (rho : ℚ) (nReplicas : Nat)
    (exchangeEvery : Nat) (Or : Nat → Nat → MoveOracle) (uCoin : Nat → Nat → ℚ)
    (uAcc : Nat → Nat → Bool) (exAcc : Nat → Nat → ℚ → Bool) (step : Nat)
    (st : RemcState) : Except String RemcState :=
  match remcMovePass hp mode rho (Or step) (uCoin step) (uAcc step) nReplicas st with
  | Except.error e => Except.error e
  | Except.ok st2 =>
      let st3 := { st2 with energies := st2.energies ++ [st2.arrays.Es.getD 0 0],
                            best_energies := st2.best_energies ++ [st2.best_E] }
      if step % exchangeEvery = 0 then
        Except.ok { st3 with
          arrays := exchangeSweep (exAcc step) (if st3.even then 0 else 1) nReplicas
            st3.arrays,
          even := !st3.even }
      else Except.ok st3

/-- The run_remc step loop. -/
def remcLoop (hp : List Char) (mode : String) (rho : ℚ) (nReplicas : Nat)
    (exchangeEvery : Nat) (Or : Nat → Nat → MoveOracle) (uCoin : Nat → Nat → ℚ)
    (uAcc : Nat → Nat → Bool) (exAcc : Nat → Nat → ℚ → Bool) :
    Nat → Nat → RemcState → Except String RemcState
  | _, 0, st => Except.ok st
  | step, k + 1, st =>
      match remcStep hp mode rho nReplicas exchangeEvery Or uCoin uAcc exAcc step st with
      | Except.error e => Except.error e
      | Except.ok st2 =>
          remcLoop hp mode rho nReplicas exchangeEvery Or uCoin uAcc exAcc (step + 1) k st2

/-- remc.py `run_remc`: steps clipped to 10000, `n_replicas = max(2, ...)`,
linear ladder `np.linspace(tmin, tmax, n_replicas)` (exact rational
arithmetic models the floats), all replicas from the straight line; the final
conformation is the coldest replica, overridden by the best conformation when
strictly better. -/
def run_remc (hp : List Char) (steps : Int) (nRepl : Int) (tmin tmax : ℚ)
    (exchangeEvery : Nat) (mode : String) (rho : ℚ) (Or : Nat → Nat → MoveOracle)
    (uCoin : Nat → Nat → ℚ) (uAcc : Nat → Nat → Bool)
    (exAcc : Nat → Nat → ℚ → Bool) : Except String MCResult :=
  let steps2 := (min steps 10000).toNat
  let nReplicas := (max 2 nRepl).toNat
  let temps : List ℚ := (List.range nReplicas).map
    (fun r => tmin + (r : ℚ) * (tmax - tmin) / ((nReplicas : ℚ) - 1))
  let init_coords := initial_line hp.length
  let init_E := energy_hp init_coords hp
  let st0 : RemcState :=
    ⟨⟨(List.range nReplicas).map (fun _ => init_coords),
      (List.range nReplicas).map (fun _ => init_E), temps⟩,
      init_E, init_coords, [], [], true⟩
  (remcLoop hp mode rho nReplicas exchangeEvery Or uCoin uAcc exAcc 1 steps2 st0).map
    (fun st =>
      let fc := if st.best_E < st.arrays.Es.getD 0 0 then st.best_coords
        else st.arrays.cs.getD 0 []
      ⟨fc, st.best_coords, st.energies, st.best_energies, st.best_E⟩)

/-! ### Trace invariants of the MC driver -/

/-- Loop invariant tying the best record to the traces. -/
def mcInv (hp : List Char) (st : MCState) : Prop :=
  st.energies.length = st.best_energies.length ∧
  st.best_E = energy_hp st.best_coords hp ∧
  st.best_E ≤ 0 ∧
  (∀ x ∈ st.best_energies, st.best_E ≤ x) ∧
  List.Chain' (fun a b => b ≤ a) st.best_energies ∧
  (st.best_energies ≠ [] → st.best_energies.getLast? = some st.best_E)

theorem getLast?_some_mem {l : List Int} {a : Int} (h : l.getLast? = some a) : a ∈ l := by
  have hx : a ∈ l.getLast? := by rw [h]; rfl
  obtain ⟨hne, heq⟩ := List.mem_getLast?_eq_getLast hx
  rw [heq]
  exact List.getLast_mem hne

theorem mcInv_append (hp : List Char) (st : MCState) (hinv : mcInv hp st)
    (cs : List Coord) (E2 : Int) (bc : List Coord) (bE : Int)
    (hbE : bE ≤ st.best_E) (hbc : bE = energy_hp bc hp) (hb0 : bE ≤ 0) :
    mcInv hp ⟨cs, E2, bc, bE, st.energies ++ [E2], st.best_energies ++ [bE]⟩ := by
  obtain ⟨hlen, _, _, hlb, hch, hlast⟩ := hinv
  refine ⟨?_, hbc, hb0, ?_, ?_, ?_⟩
  · simp [hlen]
  · intro x hx
    rcases List.mem_append.mp hx with hx | hx
    · exact le_trans hbE (hlb x hx)
    · rw [List.mem_singleton.mp hx]
  · rw [List.chain'_append]
    refine ⟨hch, List.chain'_singleton bE, ?_⟩
    intro x hx y hy
    have hyv : y = bE := by have := hy; simp at this; omega
    subst hyv
    have hne : st.best_energies ≠ [] := by
      intro hemp
      rw [hemp] at hx
      simp at hx
    rw [hlast hne] at hx
    have hxv : x = st.best_E := by have := hx; simp at this; omega
    subst hxv
    exact hbE
  · intro _
    exact List.getLast?_concat _

theorem mcStep_ok {hp : List Char} {mode : String} {rho : ℚ} {O : MoveOracle}
    {uCoin : ℚ} {uAcc : Bool} {st st2 : MCState}
    (h : mcStep hp mode rho O uCoin uAcc st = Except.ok st2) (hinv : mcInv hp st) :
    mcInv hp st2 ∧ st2.best_E ≤ st.best_E ∧
      st2.energies.length = st.energies.length + 1 := by
  unfold mcStep at h
  cases ham : attempt_move O rho uCoin st.coords mode with
  | error e =>
      rw [ham] at h
      exact Except.noConfusion h
  | ok oprop =>
      rw [ham] at h
      cases oprop with
      | none =>
          injection h with h2
          subst h2
          exact ⟨mcInv_append hp st hinv st.coords st.E st.best_coords st.best_E
            (le_refl _) hinv.2.1 hinv.2.2.1, le_refl _, by simp⟩
      | some prop =>
          dsimp only at h
          injection h with h2
          subst h2
          by_cases hacc : mcAccept (energy_hp prop hp - st.E) uAcc
          · rw [if_pos hacc]
            by_cases himp : energy_hp prop hp < st.best_E
            · simp only [if_pos himp]
              exact ⟨mcInv_append hp st hinv prop (energy_hp prop hp) prop
                (energy_hp prop hp) (le_of_lt himp) rfl (energy_hp_nonpos _ _),
                le_of_lt himp, by simp⟩
            · simp only [if_neg himp]
              exact ⟨mcInv_append hp st hinv prop (energy_hp prop hp) st.best_coords
                st.best_E (le_refl _) hinv.2.1 hinv.2.2.1, le_refl _, by simp⟩
          · rw [if_neg hacc]
            exact ⟨mcInv_append hp st hinv st.coords st.E st.best_coords st.best_E
              (le_refl _) hinv.2.1 hinv.2.2.1, le_refl _, by simp⟩

theorem mcLoop_ok {hp : List Char} {mode : String} {rho : ℚ} {Ost : Nat → MoveOracle}
    {uCoin : Nat → ℚ} {uAcc : Nat → Bool} :
    ∀ (k t : Nat) (st st2 : MCState),
      mcLoop hp mode rho Ost uCoin uAcc t k st = Except.ok st2 → mcInv hp st →
      mcInv hp st2 ∧ st2.energies.length = st.energies.length + k ∧
        st2.best_E ≤ st.best_E := by
  intro k
  induction k with
  | zero =>
      intro t st st2 h hinv
      injection h with h2
      subst h2
      exact ⟨hinv, by simp, le_refl _⟩
  | succ k ih =>
      intro t st st2 h hinv
      rw [mcLoop] at h
      cases hstep : mcStep hp mode rho (Ost t) (uCoin t) (uAcc t) st with
      | error e =>
          rw [hstep] at h
          exact Except.noConfusion h
      | ok stm =>
          rw [hstep] at h
          obtain ⟨hinvm, hbm, hlenm⟩ := mcStep_ok hstep hinv
          obtain ⟨hinv2, hlen2, hb2⟩ := ih (t + 1) stm st2 h hinvm
          exact ⟨hinv2, by omega, le_trans hb2 hbm⟩

theorem mcInv_init (hp : List Char) :
    mcInv hp ⟨initial_line hp.length, energy_hp (initial_line hp.length) hp,
      initial_line hp.length, energy_hp (initial_line hp.length) hp, [], []⟩ :=
  ⟨rfl, rfl, energy_hp_nonpos _ _, by simp, List.chain'_nil, fun h => absurd rfl h⟩

theorem run_mc_ok_props {hp : List Char} {steps : Int} {temperature : ℚ} {mode : String}
    {rho : ℚ} {Ost : Nat → MoveOracle} {uCoin : Nat → ℚ} {uAcc : Nat → Bool}
    {r : MCResult}
    (h : run_mc hp steps temperature mode rho Ost uCoin uAcc = Except.ok r) :
    r.best_energy = energy_hp r.best_coords hp ∧ r.best_energy ≤ 0 ∧
    r.energies.length = (min steps 10000).toNat ∧
    r.best_energies.length = r.energies.length ∧
    (∀ x ∈ r.best_energies, r.best_energy ≤ x) ∧
    List.Chain' (fun a b => b ≤ a) r.best_energies ∧
    (r.best_energies ≠ [] → r.best_energy ∈ r.best_energies) := by
  unfold run_mc at h
  dsimp only at h
  cases hloop : mcLoop hp mode rho Ost uCoin uAcc 0 (min steps 10000).toNat
      ⟨initial_line hp.length, energy_hp (initial_line hp.length) hp,
        initial_line hp.length, energy_hp (initial_line hp.length) hp, [], []⟩ with
  | error e =>
      rw [hloop] at h
      exact Except.noConfusion h
  | ok st =>
      rw [hloop] at h
      injection h with h2
      subst h2
      obtain ⟨⟨hlen, hbc, hb0, hlb, hch, hlast⟩, hlen2, _⟩ :=
        mcLoop_ok (min steps 10000).toNat 0 _ st hloop (mcInv_init hp)
      refine ⟨hbc, hb0, by simpa using hlen2, by simpa using hlen.symm, hlb, hch, ?_⟩
      intro hne
      exact getLast?_some_mem (hlast hne)

/-! ### Trace invariants of the REMC driver -/

/-- Loop invariant of run_remc tying the global best record to the traces. -/
def remcInv (hp : List Char) (st : RemcState) : Prop :=
  st.energies.length = st.best_energies.length ∧
  st.best_E = energy_hp st.best_coords hp ∧
  st.best_E ≤ 0 ∧
  (∀ x ∈ st.best_energies, st.best_E ≤ x) ∧
  List.Chain' (fun a b => b ≤ a) st.best_energies ∧
  (st.best_energies ≠ [] → st.best_energies.getLast? = some st.best_E)

theorem remcInv_append (hp : List Char) (st : RemcState) (hinv : remcInv hp st)
    (a : ReplicaArrays) (E2 : Int) (bc : List Coord) (bE : Int) (ev : Bool)
    (hbE : bE ≤ st.best_E) (hbc : bE = energy_hp bc hp) (hb0 : bE ≤ 0) :
    remcInv hp ⟨a, bE, bc, st.energies ++ [E2], st.best_energies ++ [bE], ev⟩ := by
  obtain ⟨hlen, _, _, hlb, hch, hlast⟩ := hinv
  refine ⟨?_, hbc, hb0, ?_, ?_, ?_⟩
  · simp [hlen]
  · intro x hx
    rcases List.mem_append.mp hx with hx | hx
    · exact le_trans hbE (hlb x hx)
    · rw [List.mem_singleton.mp hx]
  · rw [List.chain'_append]
    refine ⟨hch, List.chain'_singleton bE, ?_⟩
    intro x hx y hy
    have hyv : y = bE := by have := hy; simp at this; omega
    subst hyv
    have hne : st.best_energies ≠ [] := by
      intro hemp
      rw [hemp] at hx
      simp at hx
    rw [hlast hne] at hx
    have hxv : x = st.best_E := by have := hx; simp at this; omega
    subst hxv
    exact hbE
  · intro _
    exact List.getLast?_concat _

theorem remcMoveOne_ok {hp : List Char} {mode : String} {rho : ℚ} {Or : Nat → MoveOracle}
    {uCoin : Nat → ℚ} {uAcc : Nat → Bool} {st st2 : RemcState} {r : Nat}
    (h : remcMoveOne hp mode rho Or uCoin uAcc st r = Except.ok st2) :
    st2.energies = st.energies ∧ st2.best_energies = st.best_energies ∧
    st2.even = st.even ∧ st2.arrays.ts = st.arrays.ts ∧
    st2.best_E ≤ st.best_E ∧
    (st.best_E = energy_hp st.best_coords hp ∧ st.best_E ≤ 0 →
      st2.best_E = energy_hp st2.best_coords hp ∧ st2.best_E ≤ 0) := by
  unfold remcMoveOne at h
  cases ham : attempt_move (Or r) rho (uCoin r) (st.arrays.cs.getD r []) mode with
  | error e =>
      rw [ham] at h
      exact Except.noConfusion h
  | ok oprop =>
      rw [ham] at h
      cases oprop with
      | none =>
          injection h with h2
          subst h2
          exact ⟨rfl, rfl, rfl, rfl, le_refl _, id⟩
      | some prop =>
          dsimp only at h
          by_cases hacc : mcAccept (energy_hp prop hp - st.arrays.Es.getD r 0) (uAcc r)
          · rw [if_pos hacc] at h
            injection h with h2
            subst h2
            refine ⟨rfl, rfl, rfl, rfl, ?_, ?_⟩
            · show (if energy_hp prop hp < st.best_E then energy_hp prop hp
                else st.best_E) ≤ st.best_E
              by_cases himp : energy_hp prop hp < st.best_E
              · rw [if_pos himp]
                exact le_of_lt himp
              · rw [if_neg himp]
            · intro hpre
              show (if energy_hp prop hp < st.best_E then energy_hp prop hp
                  else st.best_E) =
                energy_hp (if energy_hp prop hp < st.best_E then prop
                  else st.best_coords) hp ∧
                (if energy_hp prop hp < st.best_E then energy_hp prop hp
                  else st.best_E) ≤ 0
              by_cases himp : energy_hp prop hp < st.best_E
              · rw [if_pos himp, if_pos himp]
                exact ⟨rfl, energy_hp_nonpos _ _⟩
              · rw [if_neg himp, if_neg himp]
                exact hpre
          · rw [if_neg hacc] at h
            injection h with h2
            subst h2
            exact ⟨rfl, rfl, rfl, rfl, le_refl _, id⟩

theorem remcMovePass_fold_ok {hp : List Char} {mode : String} {rho : ℚ}
    {Or : Nat → MoveOracle} {uCoin : Nat → ℚ} {uAcc : Nat → Bool} :
    ∀ (l : List Nat) (st st2 : RemcState),
      l.foldlM (remcMoveOne hp mode rho Or uCoin uAcc) st = Except.ok st2 →
      st2.energies = st.energies ∧ st2.best_energies = st.best_energies ∧
      st2.even = st.even ∧ st2.arrays.ts = st.arrays.ts ∧
      st2.best_E ≤ st.best_E ∧
      (st.best_E = energy_hp st.best_coords hp ∧ st.best_E ≤ 0 →
        st2.best_E = energy_hp st2.best_coords hp ∧ st2.best_E ≤ 0) := by
  intro l
  induction l with
  | nil =>
      intro st st2 h
      injection h with h2
      subst h2
      exact ⟨rfl, rfl, rfl, rfl, le_refl _, id⟩
  | cons a l ih =>
      intro st st2 h
      rw [List.foldlM_cons] at h
      cases hone : remcMoveOne hp mode rho Or uCoin uAcc st a with
      | error e =>
          rw [hone] at h
          exact Except.noConfusion h
      | ok stm =>
          rw [hone] at h
          have h2 : l.foldlM (remcMoveOne hp mode rho Or uCoin uAcc) stm =
              Except.ok st2 := h
          obtain ⟨e1, b1, v1, t1, le1, p1⟩ := remcMoveOne_ok hone
          obtain ⟨e2, b2, v2, t2, le2, p2⟩ := ih stm st2 h2
          exact ⟨e2.trans e1, b2.trans b1, v2.trans v1, t2.trans t1,
            le_trans le2 le1, fun hpre => p2 (p1 hpre)⟩

theorem remcStep_ok {hp : List Char} {mode : String} {rho : ℚ} {nReplicas : Nat}
    {exchangeEvery : Nat} {Or : Nat → Nat → MoveOracle} {uCoin : Nat → Nat → ℚ}
    {uAcc : Nat → Nat → Bool} {exAcc : Nat → Nat → ℚ → Bool} {step : Nat}
    {st st2 : RemcState}
    (h : remcStep hp mode rho nReplicas exchangeEvery Or uCoin uAcc exAcc step st =
      Except.ok st2)
    (hinv : remcInv hp st) :
    remcInv hp st2 ∧ st2.best_E ≤ st.best_E ∧
      st2.energies.length = st.energies.length + 1 := by
  unfold remcStep at h
  cases hpass : remcMovePass hp mode rho (Or step) (uCoin step) (uAcc step) nReplicas st with
  | error e =>
      rw [hpass] at h
      exact Except.noConfusion h
  | ok stm =>
      rw [hpass] at h
      dsimp only at h
      obtain ⟨hen, hbes, _, _, hble, hbinv⟩ :=
        remcMovePass_fold_ok (List.range nReplicas) st stm hpass
      have hb2 := hbinv ⟨hinv.2.1, hinv.2.2.1⟩
      by_cases hex : step % exchangeEvery = 0
      · rw [if_pos hex] at h
        injection h with h2
        subst h2
        refine ⟨?_, hble, by simp [hen]⟩
        rw [hen, hbes]
        exact remcInv_append hp st hinv _ _ stm.best_coords stm.best_E _
          hble hb2.1 hb2.2
      · rw [if_neg hex] at h
        injection h with h2
        subst h2
        refine ⟨?_, hble, by simp [hen]⟩
        rw [hen, hbes]
        exact remcInv_append hp st hinv _ _ stm.best_coords stm.best_E _
          hble hb2.1 hb2.2

theorem remcLoop_ok {hp : List Char} {mode : String} {rho : ℚ} {nReplicas : Nat}
    {exchangeEvery : Nat} {Or : Nat → Nat → MoveOracle} {uCoin : Nat → Nat → ℚ}
    {uAcc : Nat → Nat → Bool} {exAcc : Nat → Nat → ℚ → Bool} :
    ∀ (k step : Nat) (st st2 : RemcState),
      remcLoop hp mode rho nReplicas exchangeEvery Or uCoin uAcc exAcc step k st =
        Except.ok st2 →
      remcInv hp st →
      remcInv hp st2 ∧ st2.energies.length = st.energies.length + k ∧
        st2.best_E ≤ st.best_E := by
  intro k
  induction k with
  | zero =>
      intro step st st2 h hinv
      injection h with h2
      subst h2
      exact ⟨hinv, by simp, le_refl _⟩
  | succ k ih =>
      intro step st st2 h hinv
      rw [remcLoop] at h
      cases hstep : remcStep hp mode rho nReplicas exchangeEvery Or uCoin uAcc exAcc
          step st with
      | error e =>
          rw [hstep] at h
          exact Except.noConfusion h
      | ok stm =>
          rw [hstep] at h
          obtain ⟨hinvm, hbm, hlenm⟩ := remcStep_ok hstep hinv
          obtain ⟨hinv2, hlen2, hb2⟩ := ih (step + 1) stm st2 h hinvm
          exact ⟨hinv2, by omega, le_trans hb2 hbm⟩

theorem run_remc_ok_props {hp : List Char} {steps : Int} {nRepl : Int} {tmin tmax : ℚ}
    {exchangeEvery : Nat} {mode : String} {rho : ℚ} {Or : Nat → Nat → MoveOracle}
    {uCoin : Nat → Nat → ℚ} {uAcc : Nat → Nat → Bool} {exAcc : Nat → Nat → ℚ → Bool}
    {r : MCResult}
    (h : run_remc hp steps nRepl tmin tmax exchangeEvery mode rho Or uCoin uAcc exAcc =
      Except.ok r) :
    r.best_energy = energy_hp r.best_coords hp ∧ r.best_energy ≤ 0 ∧
    r.energies.length = (min steps 10000).toNat ∧
    r.best_energies.length = r.energies.length ∧
    (∀ x ∈ r.best_energies, r.best_energy ≤ x) ∧
    List.Chain' (fun a b => b ≤ a) r.best_energies ∧
    (r.best_energies ≠ [] → r.best_energy ∈ r.best_energies) := by
  unfold run_remc at h
  dsimp only at h
  cases hloop : remcLoop hp mode rho (max 2 nRepl).toNat exchangeEvery Or uCoin uAcc exAcc
      1 (min steps 10000).toNat
      ⟨⟨(List.range (max 2 nRepl).toNat).map (fun _ => initial_line hp.length),
        (List.range (max 2 nRepl).toNat).map (fun _ => energy_hp (initial_line hp.length) hp),
        (List.range (max 2 nRepl).toNat).map
          (fun rr => tmin + (rr : ℚ) * (tmax - tmin) / (((max 2 nRepl).toNat : ℚ) - 1))⟩,
        energy_hp (initial_line hp.length) hp, initial_line hp.length, [], [], true⟩ with
  | error e =>
      rw [hloop] at h
      exact Except.noConfusion h
  | ok st =>
      rw [hloop] at h
      injection h with h2
      subst h2
      have hinit : remcInv hp
          ⟨⟨(List.range (max 2 nRepl).toNat).map (fun _ => initial_line hp.length),
            (List.range (max 2 nRepl).toNat).map
              (fun _ => energy_hp (initial_line hp.length) hp),
            (List.range (max 2 nRepl).toNat).map
              (fun rr => tmin + (rr : ℚ) * (tmax - tmin) /
                (((max 2 nRepl).toNat : ℚ) - 1))⟩,
            energy_hp (initial_line hp.length) hp, initial_line hp.length, [], [], true⟩ :=
        ⟨rfl, rfl, energy_hp_nonpos _ _, by simp, List.chain'_nil, fun hf => absurd rfl hf⟩
      obtain ⟨⟨hlen, hbc, hb0, hlb, hch, hlast⟩, hlen2, _⟩ :=
        remcLoop_ok (min steps 10000).toNat 1 _ st hloop hinit
      refine ⟨hbc, hb0, by simpa using hlen2, by simpa using hlen.symm, hlb, hch, ?_⟩
      intro hne
      exact getLast?_some_mem (hlast hne)

/-! ### Error behaviour of the drivers -/

theorem attempt_move_ok_of_valid (O : MoveOracle) (rho uCoin : ℚ) (coords : List Coord)
    (mode : String) (h : mode = "vshd" ∨ mode = "pull" ∨ mode = "hybrid") :
    ∃ res, attempt_move O rho uCoin coords mode = Except.ok res := by
  rcases h with h | h | h <;> subst h
  · exact ⟨attempt_vshd O coords, rfl⟩
  · exact ⟨attemptPull O coords, rfl⟩
  · have hred : attempt_move O rho uCoin coords "hybrid" =
        (if uCoin < rho then
          match attemptPull O coords with
          | some res => Except.ok (some res)
          | none => Except.ok (attempt_vshd O coords)
        else
          match attempt_vshd O coords with
          | some res => Except.ok (some res)
          | none => Except.ok (attemptPull O coords)) := rfl
    rw [hred]
    by_cases hu : uCoin < rho
    · rw [if_pos hu]
      cases attemptPull O coords with
      | some res => exact ⟨some res, rfl⟩
      | none => exact ⟨attempt_vshd O coords, rfl⟩
    · rw [if_neg hu]
      cases attempt_vshd O coords with
      | some res => exact ⟨some res, rfl⟩
      | none => exact ⟨attemptPull O coords, rfl⟩

theorem attempt_move_error_of_invalid (O : MoveOracle) (rho uCoin : ℚ)
    (coords : List Coord) (mode : String)
    (h1 : mode ≠ "vshd") (h2 : mode ≠ "pull") (h3 : mode ≠ "hybrid") :
    attempt_move O rho uCoin coords mode = Except.error "mode de mouvements invalide" := by
  unfold attempt_move
  rw [if_pos ⟨h1, h2, h3⟩]

theorem mcStep_ok_exists (hp : List Char) (mode : String) (rho : ℚ) (O : MoveOracle)
    (uCoin : ℚ) (uAcc : Bool) (st : MCState)
    (h : mode = "vshd" ∨ mode = "pull" ∨ mode = "hybrid") :
    ∃ st2, mcStep hp mode rho O uCoin uAcc st = Except.ok st2 := by
  obtain ⟨res, hres⟩ := attempt_move_ok_of_valid O rho uCoin st.coords mode h
  unfold mcStep
  rw [hres]
  cases res with
  | none => exact ⟨_, rfl⟩
  | some prop => exact ⟨_, rfl⟩

theorem mcLoop_ok_exists (hp : List Char) (mode : String) (rho : ℚ)
    (Ost : Nat → MoveOracle) (uCoin : Nat → ℚ) (uAcc : Nat → Bool)
    (h : mode = "vshd" ∨ mode = "pull" ∨ mode = "hybrid") :
    ∀ (k t : Nat) (st : MCState),
      ∃ st2, mcLoop hp mode rho Ost uCoin uAcc t k st = Except.ok st2 := by
  intro k
  induction k with
  | zero => intro t st; exact ⟨st, rfl⟩
  | succ k ih =>
      intro t st
      obtain ⟨stm, hstm⟩ := mcStep_ok_exists hp mode rho (Ost t) (uCoin t) (uAcc t) st h
      obtain ⟨st2, hst2⟩ := ih (t + 1) stm
      refine ⟨st2, ?_⟩
      rw [mcLoop, hstm]
      exact hst2

theorem run_mc_ok_exists (hp : List Char) (steps : Int) (temperature : ℚ) (mode : String)
    (rho : ℚ) (Ost : Nat → MoveOracle) (uCoin : Nat → ℚ) (uAcc : Nat → Bool)
    (h : mode = "vshd" ∨ mode = "pull" ∨ mode = "hybrid") :
    ∃ r, run_mc hp steps temperature mode rho Ost uCoin uAcc = Except.ok r := by
  obtain ⟨st2, hst2⟩ := mcLoop_ok_exists hp mode rho Ost uCoin uAcc h
    (min steps 10000).toNat 0
    ⟨initial_line hp.length, energy_hp (initial_line hp.length) hp,
      initial_line hp.length, energy_hp (initial_line hp.length) hp, [], []⟩
  refine ⟨⟨st2.coords, st2.best_coords, st2.energies, st2.best_energies, st2.best_E⟩, ?_⟩
  unfold run_mc
  dsimp only
  rw [hst2]
  rfl

theorem run_mc_error_of_invalid_mode (hp : List Char) (steps : Int) (temperature : ℚ)
    (mode : String) (rho : ℚ) (Ost : Nat → MoveOracle) (uCoin : Nat → ℚ)
    (uAcc : Nat → Bool)
    (h1 : mode ≠ "vshd") (h2 : mode ≠ "pull") (h3 : mode ≠ "hybrid")
    (hs : 1 ≤ (min steps 10000).toNat) :
    run_mc hp steps temperature mode rho Ost uCoin uAcc =
      Except.error "mode de mouvements invalide" := by
  obtain ⟨k, hk⟩ : ∃ k, (min steps 10000).toNat = k + 1 := ⟨(min steps 10000).toNat - 1, by omega⟩
  unfold run_mc
  dsimp only
  rw [hk, mcLoop]
  have hstep : mcStep hp mode rho (Ost 0) (uCoin 0) (uAcc 0)
      ⟨initial_line hp.length, energy_hp (initial_line hp.length) hp,
        initial_line hp.length, energy_hp (initial_line hp.length) hp, [], []⟩ =
      Except.error "mode de mouvements invalide" := by
    unfold mcStep
    rw [attempt_move_error_of_invalid _ _ _ _ _ h1 h2 h3]
  rw [hstep]
  rfl

theorem remcMoveOne_ok_exists (hp : List Char) (mode : String) (rho : ℚ)
    (Or : Nat → MoveOracle) (uCoin : Nat → ℚ) (uAcc : Nat → Bool) (st : RemcState)
    (r : Nat) (h : mode = "vshd" ∨ mode = "pull" ∨ mode = "hybrid") :
    ∃ st2, remcMoveOne hp mode rho Or uCoin uAcc st r = Except.ok st2 := by
  obtain ⟨res, hres⟩ := attempt_move_ok_of_valid (Or r) rho (uCoin r)
    (st.arrays.cs.getD r []) mode h
  unfold remcMoveOne
  rw [hres]
  cases res with
  | none => exact ⟨_, rfl⟩
  | some prop =>
      dsimp only
      by_cases hacc : mcAccept (energy_hp prop hp - st.arrays.Es.getD r 0) (uAcc r)
      · rw [if_pos hacc]
        exact ⟨_, rfl⟩
      · rw [if_neg hacc]
        exact ⟨_, rfl⟩

theorem remcFold_ok_exists (hp : List Char) (mode : String) (rho : ℚ)
    (Or : Nat → MoveOracle) (uCoin : Nat → ℚ) (uAcc : Nat → Bool)
    (h : mode = "vshd" ∨ mode = "pull" ∨ mode = "hybrid") :
    ∀ (l : List Nat) (st : RemcState),
      ∃ st2, l.foldlM (remcMoveOne hp mode rho Or uCoin uAcc) st = Except.ok st2 := by
  intro l
  induction l with
  | nil => intro st; exact ⟨st, rfl⟩
  | cons a l ih =>
      intro st
      obtain ⟨stm, hstm⟩ := remcMoveOne_ok_exists hp mode rho Or uCoin uAcc st a h
      obtain ⟨st2, hst2⟩ := ih stm
      refine ⟨st2, ?_⟩
      rw [List.foldlM_cons, hstm]
      exact hst2

theorem remcStep_ok_exists (hp : List Char) (mode : String) (rho : ℚ) (nReplicas : Nat)
    (exchangeEvery : Nat) (Or : Nat → Nat → MoveOracle) (uCoin : Nat → Nat → ℚ)
    (uAcc : Nat → Nat → Bool) (exAcc : Nat → Nat → ℚ → Bool) (step : Nat)
    (st : RemcState) (h : mode = "vshd" ∨ mode = "pull" ∨ mode = "hybrid") :
    ∃ st2, remcStep hp mode rho nReplicas exchangeEvery Or uCoin uAcc exAcc step st =
      Except.ok st2 := by
  obtain ⟨stm, hstm⟩ := remcFold_ok_exists hp mode rho (Or step) (uCoin step) (uAcc step) h
    (List.range nReplicas) st
  unfold remcStep remcMovePass
  rw [hstm]
  dsimp only
  by_cases hex : step % exchangeEvery = 0
  · rw [if_pos hex]
    exact ⟨_, rfl⟩
  · rw [if_neg hex]
    exact ⟨_, rfl⟩

theorem remcLoop_ok_exists (hp : List Char) (mode : String) (rho : ℚ) (nReplicas : Nat)
    (exchangeEvery : Nat) (Or : Nat → Nat → MoveOracle) (uCoin : Nat → Nat → ℚ)
    (uAcc : Nat → Nat → Bool) (exAcc : Nat → Nat → ℚ → Bool)
    (h : mode = "vshd" ∨ mode = "pull" ∨ mode = "hybrid") :
    ∀ (k step : Nat) (st : RemcState),
      ∃ st2, remcLoop hp mode rho nReplicas exchangeEvery Or uCoin uAcc exAcc step k st =
        Except.ok st2 := by
  intro k
  induction k with
  | zero => intro step st; exact ⟨st, rfl⟩
  | succ k ih =>
      intro step st
      obtain ⟨stm, hstm⟩ := remcStep_ok_exists hp mode rho nReplicas exchangeEvery Or
        uCoin uAcc exAcc step st h
      obtain ⟨st2, hst2⟩ := ih (step + 1) stm
      refine ⟨st2, ?_⟩
      rw [remcLoop, hstm]
      exact hst2

theorem run_remc_ok_exists (hp : List Char) (steps : Int) (nRepl : Int) (tmin tmax : ℚ)
    (exchangeEvery : Nat) (mode : String) (rho : ℚ) (Or : Nat → Nat → MoveOracle)
    (uCoin : Nat → Nat → ℚ) (uAcc : Nat → Nat → Bool) (exAcc : Nat → Nat → ℚ → Bool)
    (h : mode = "vshd" ∨ mode = "pull" ∨ mode = "hybrid") :
    ∃ r, run_remc hp steps nRepl tmin tmax exchangeEvery mode rho Or uCoin uAcc exAcc =
      Except.ok r := by
  obtain ⟨st2, hst2⟩ := remcLoop_ok_exists hp mode rho (max 2 nRepl).toNat exchangeEvery
    Or uCoin uAcc exAcc h (min steps 10000).toNat 1
    ⟨⟨(List.range (max 2 nRepl).toNat).map (fun _ => initial_line hp.length),
      (List.range (max 2 nRepl).toNat).map (fun _ => energy_hp (initial_line hp.length) hp),
      (List.range (max 2 nRepl).toNat).map
        (fun rr => tmin + (rr : ℚ) * (tmax - tmin) / (((max 2 nRepl).toNat : ℚ) - 1))⟩,
      energy_hp (initial_line hp.length) hp, initial_line hp.length, [], [], true⟩
  refine ⟨⟨if st2.best_E < st2.arrays.Es.getD 0 0 then st2.best_coords
      else st2.arrays.cs.getD 0 [], st2.best_coords, st2.energies, st2.best_energies,
      st2.best_E⟩, ?_⟩
  unfold run_remc
  dsimp only
  rw [hst2]
  rfl

theorem run_mc_ok_of_zero_steps (hp : List Char) (steps : Int) (temperature : ℚ)
    (mode : String) (rho : ℚ) (Ost : Nat → MoveOracle) (uCoin : Nat → ℚ)
    (uAcc : Nat → Bool) (hz : (min steps 10000).toNat = 0) :
    ∃ r, run_mc hp steps temperature mode rho Ost uCoin uAcc = Except.ok r := by
  refine ⟨⟨initial_line hp.length, initial_line hp.length, [], [],
    energy_hp (initial_line hp.length) hp⟩, ?_⟩
  unfold run_mc
  dsimp only
  rw [hz]
  rfl

theorem remcStep_error_of_invalid_mode (hp : List Char) (mode : String) (rho : ℚ)
    (nReplicas : Nat) (exchangeEvery : Nat) (Or : Nat → Nat → MoveOracle)
    (uCoin : Nat → Nat → ℚ) (uAcc : Nat → Nat → Bool) (exAcc : Nat → Nat → ℚ → Bool)
    (step : Nat) (st : RemcState)
    (h1 : mode ≠ "vshd") (h2 : mode ≠ "pull") (h3 : mode ≠ "hybrid")
    (hn : 1 ≤ nReplicas) :
    remcStep hp mode rho nReplicas exchangeEvery Or uCoin uAcc exAcc step st =
      Except.error "mode de mouvements invalide" := by
  obtain ⟨m, hm⟩ : ∃ m, nReplicas = m + 1 := ⟨nReplicas - 1, by omega⟩
  have hone : remcMoveOne hp mode rho (Or step) (uCoin step) (uAcc step) st 0 =
      Except.error "mode de mouvements invalide" := by
    unfold remcMoveOne
    rw [attempt_move_error_of_invalid _ _ _ _ _ h1 h2 h3]
  unfold remcStep remcMovePass
  rw [hm, List.range_succ_eq_map, List.foldlM_cons, hone]
  rfl

theorem run_remc_error_of_invalid_mode (hp : List Char) (steps : Int) (nRepl : Int)
    (tmin tmax : ℚ) (exchangeEvery : Nat) (mode : String) (rho : ℚ)
    (Or : Nat → Nat → MoveOracle) (uCoin : Nat → Nat → ℚ) (uAcc : Nat → Nat → Bool)
    (exAcc : Nat → Nat → ℚ → Bool)
    (h1 : mode ≠ "vshd") (h2 : mode ≠ "pull") (h3 : mode ≠ "hybrid")
    (hs : 1 ≤ (min steps 10000).toNat) :
    run_remc hp steps nRepl tmin tmax exchangeEvery mode rho Or uCoin uAcc exAcc =
      Except.error "mode de mouvements invalide" := by
  obtain ⟨k, hk⟩ : ∃ k, (min steps 10000).toNat = k + 1 :=
    ⟨(min steps 10000).toNat - 1, by omega⟩
  unfold run_remc
  dsimp only
  rw [hk, remcLoop]
  rw [remcStep_error_of_invalid_mode hp mode rho ((max 2 nRepl).toNat) exchangeEvery Or
    uCoin uAcc exAcc 1 _ h1 h2 h3 (by omega)]
  rfl

theorem run_remc_ok_of_zero_steps (hp : List Char) (steps : Int) (nRepl : Int)
    (tmin tmax : ℚ) (exchangeEvery : Nat) (mode : String) (rho : ℚ)
    (Or : Nat → Nat → MoveOracle) (uCoin : Nat → Nat → ℚ) (uAcc : Nat → Nat → Bool)
    (exAcc : Nat → Nat → ℚ → Bool) (hz : (min steps 10000).toNat = 0) :
    ∃ r, run_remc hp steps nRepl tmin tmax exchangeEvery mode rho Or uCoin uAcc exAcc =
      Except.ok r := by
  refine ⟨⟨if energy_hp (initial_line hp.length) hp <
        ((List.range (max 2 nRepl).toNat).map
          (fun _ => energy_hp (initial_line hp.length) hp)).getD 0 0
      then initial_line hp.length
      else ((List.range (max 2 nRepl).toNat).map
        (fun _ => initial_line hp.length)).getD 0 [],
    initial_line hp.length, [], [], energy_hp (initial_line hp.length) hp⟩, ?_⟩
  unfold run_remc
  dsimp only
  rw [hz]
  rfl

/-! ## Claim theorems on the drivers -/

theorem getD_set_ne {α : Type} (l : List α) (i k : Nat) (x d : α) (h : k ≠ i) :
    (l.set i x).getD k d = l.getD k d := by
  rw [List.getD_eq_getElem?_getD, List.getD_eq_getElem?_getD,
    List.getElem?_set_ne (Ne.symm h)]

/-- The HHHH sequence of scenario S1. -/
def hp4 : List Char := ['H', 'H', 'H', 'H']

/-- C4: for every run of run_mc or run_remc that returns, the returned
best_energy is the energy recomputed from the returned best conformation, is
≤ 0, and is the minimum of best_energies whenever that trace is nonempty
(for steps = 0 the trace is empty and min is undefined); concretely,
S = HHHH with steps = 0 returns energies = [], best_energy = 0 and the
straight line as best conformation. -/
theorem C4_best_energy_consistency :
    (∀ (hp : List Char) (steps : Int) (temperature : ℚ) (mode : String) (rho : ℚ)
        (Ost : Nat → MoveOracle) (uCoin : Nat → ℚ) (uAcc : Nat → Bool) (r : MCResult),
      run_mc hp steps temperature mode rho Ost uCoin uAcc = Except.ok r →
      r.best_energy = energy_hp r.best_coords hp ∧ r.best_energy ≤ 0 ∧
        (r.best_energies ≠ [] →
          r.best_energy ∈ r.best_energies ∧ ∀ x ∈ r.best_energies, r.best_energy ≤ x)) ∧
    (∀ (hp : List Char) (steps nRepl : Int) (tmin tmax : ℚ) (exchangeEvery : Nat)
        (mode : String) (rho : ℚ) (Or : Nat → Nat → MoveOracle) (uCoin : Nat → Nat → ℚ)
        (uAcc : Nat → Nat → Bool) (exAcc : Nat → Nat → ℚ → Bool) (r : MCResult),
      run_remc hp steps nRepl tmin tmax exchangeEvery mode rho Or uCoin uAcc exAcc =
        Except.ok r →
      r.best_energy = energy_hp r.best_coords hp ∧ r.best_energy ≤ 0 ∧
        (r.best_energies ≠ [] →
          r.best_energy ∈ r.best_energies ∧ ∀ x ∈ r.best_energies, r.best_energy ≤ x)) ∧
    (∀ (temperature : ℚ) (mode : String) (rho : ℚ) (Ost : Nat → MoveOracle)
        (uCoin : Nat → ℚ) (uAcc : Nat → Bool),
      run_mc hp4 0 temperature mode rho Ost uCoin uAcc =
        Except.ok ⟨initial_line 4, initial_line 4, [], [], 0⟩) := by
  refine ⟨?_, ?_, ?_⟩
  · intro hp steps temperature mode rho Ost uCoin uAcc r h
    obtain ⟨h1, h2, _, _, hlb, _, hmem⟩ := run_mc_ok_props h
    exact ⟨h1, h2, fun hne => ⟨hmem hne, hlb⟩⟩
  · intro hp steps nRepl tmin tmax exchangeEvery mode rho Or uCoin uAcc exAcc r h
    obtain ⟨h1, h2, _, _, hlb, _, hmem⟩ := run_remc_ok_props h
    exact ⟨h1, h2, fun hne => ⟨hmem hne, hlb⟩⟩
  · intro temperature mode rho Ost uCoin uAcc
    rfl

/-- Witness for C4: the steps = 0 run on HHHH, fed back through the universal
part. -/
theorem C4_witness :
    (0 : Int) = energy_hp (initial_line 4) hp4 ∧ (0 : Int) ≤ 0 ∧
      (([] : List Int) ≠ [] →
        (0 : Int) ∈ ([] : List Int) ∧ ∀ x ∈ ([] : List Int), (0 : Int) ≤ x) :=
  C4_best_energy_consistency.1 hp4 0 1 "vshd" (1 / 2) (fun _ => idOracle)
    (fun _ => 0) (fun _ => false) ⟨initial_line 4, initial_line 4, [], [], 0⟩
    (C4_best_energy_consistency.2.2 1 "vshd" (1 / 2) (fun _ => idOracle)
      (fun _ => 0) (fun _ => false))

/-- C5 counterexample: the claimed invalid parameters do not raise.
run_mc with steps = 0 (≤ 0), temperature = -1 (non-positive) and rho = 2
(∉ [0,1]) returns a normal result, and run_remc additionally with
tmin = 3 > tmax = 1 and negative steps does too. -/
theorem C5_counterexample :
    run_mc ['H', 'H'] 0 (-1) "hybrid" 2 (fun _ => idOracle) (fun _ => 0)
      (fun _ => false) = Except.ok ⟨initial_line 2, initial_line 2, [], [], 0⟩ ∧
    run_remc ['H', 'H'] (-5) 1 3 1 10 "hybrid" (3 / 2) (fun _ _ => idOracle)
      (fun _ _ => 0) (fun _ _ => false) (fun _ _ _ => true) =
      Except.ok ⟨initial_line 2, initial_line 2, [], [], 0⟩ :=
  ⟨rfl, rfl⟩

/-- C5 amended: the drivers validate none of steps ≤ 0, non-positive
temperature, tmin > tmax, rho ∉ [0,1].  On the program's domain (sequences of
length ≥ 2 as in §3, and positive exchange_every for REMC) a known move_mode
always returns a result for all such parameters, and the only raised error is
the unknown move_mode check of `attempt_move`, raised in either driver exactly
when the effective step count is at least 1: with an empty effective run even
an unknown mode returns normally. -/
theorem C5_amended_only_unknown_mode_fails :
    (∀ (hp : List Char) (steps : Int) (temperature : ℚ) (mode : String) (rho : ℚ)
        (Ost : Nat → MoveOracle) (uCoin : Nat → ℚ) (uAcc : Nat → Bool),
      mode = "vshd" ∨ mode = "pull" ∨ mode = "hybrid" → 2 ≤ hp.length →
      ∃ r, run_mc hp steps temperature mode rho Ost uCoin uAcc = Except.ok r) ∧
    (∀ (hp : List Char) (steps : Int) (temperature : ℚ) (mode : String) (rho : ℚ)
        (Ost : Nat → MoveOracle) (uCoin : Nat → ℚ) (uAcc : Nat → Bool),
      mode ≠ "vshd" → mode ≠ "pull" → mode ≠ "hybrid" →
      1 ≤ (min steps 10000).toNat →
      run_mc hp steps temperature mode rho Ost uCoin uAcc =
        Except.error "mode de mouvements invalide") ∧
    (∀ (hp : List Char) (steps : Int) (temperature : ℚ) (mode : String) (rho : ℚ)
        (Ost : Nat → MoveOracle) (uCoin : Nat → ℚ) (uAcc : Nat → Bool),
      (min steps 10000).toNat = 0 →
      ∃ r, run_mc hp steps temperature mode rho Ost uCoin uAcc = Except.ok r) ∧
    (∀ (hp : List Char) (steps nRepl : Int) (tmin tmax : ℚ) (exchangeEvery : Nat)
        (mode : String) (rho : ℚ) (Or : Nat → Nat → MoveOracle) (uCoin : Nat → Nat → ℚ)
        (uAcc : Nat → Nat → Bool) (exAcc : Nat → Nat → ℚ → Bool),
      mode = "vshd" ∨ mode = "pull" ∨ mode = "hybrid" → 2 ≤ hp.length →
      1 ≤ exchangeEvery →
      ∃ r, run_remc hp steps nRepl tmin tmax exchangeEvery mode rho Or uCoin uAcc exAcc =
        Except.ok r) ∧
    (∀ (hp : List Char) (steps nRepl : Int) (tmin tmax : ℚ) (exchangeEvery : Nat)
        (mode : String) (rho : ℚ) (Or : Nat → Nat → MoveOracle) (uCoin : Nat → Nat → ℚ)
        (uAcc : Nat → Nat → Bool) (exAcc : Nat → Nat → ℚ → Bool),
      mode ≠ "vshd" → mode ≠ "pull" → mode ≠ "hybrid" →
      1 ≤ (min steps 10000).toNat →
      run_remc hp steps nRepl tmin tmax exchangeEvery mode rho Or uCoin uAcc exAcc =
        Except.error "mode de mouvements invalide") ∧
    (∀ (hp : List Char) (steps nRepl : Int) (tmin tmax : ℚ) (exchangeEvery : Nat)
        (mode : String) (rho : ℚ) (Or : Nat → Nat → MoveOracle) (uCoin : Nat → Nat → ℚ)
        (uAcc : Nat → Nat → Bool) (exAcc : Nat → Nat → ℚ → Bool),
      (min steps 10000).toNat = 0 →
      ∃ r, run_remc hp steps nRepl tmin tmax exchangeEvery mode rho Or uCoin uAcc exAcc =
        Except.ok r) :=
  ⟨fun hp steps temperature mode rho Ost uCoin uAcc h _ =>
      run_mc_ok_exists hp steps temperature mode rho Ost uCoin uAcc h,
   fun hp steps temperature mode rho Ost uCoin uAcc h1 h2 h3 hs =>
      run_mc_error_of_invalid_mode hp steps temperature mode rho Ost uCoin uAcc h1 h2 h3 hs,
   fun hp steps temperature mode rho Ost uCoin uAcc hz =>
      run_mc_ok_of_zero_steps hp steps temperature mode rho Ost uCoin uAcc hz,
   fun hp steps nRepl tmin tmax exchangeEvery mode rho Or uCoin uAcc exAcc h _ _ =>
      run_remc_ok_exists hp steps nRepl tmin tmax exchangeEvery mode rho Or uCoin uAcc
        exAcc h,
   fun hp steps nRepl tmin tmax exchangeEvery mode rho Or uCoin uAcc exAcc h1 h2 h3 hs =>
      run_remc_error_of_invalid_mode hp steps nRepl tmin tmax exchangeEvery mode rho Or
        uCoin uAcc exAcc h1 h2 h3 hs,
   fun hp steps nRepl tmin tmax exchangeEvery mode rho Or uCoin uAcc exAcc hz =>
      run_remc_ok_of_zero_steps hp steps nRepl tmin tmax exchangeEvery mode rho Or uCoin
        uAcc exAcc hz⟩

/-- Witness for the amended C5: a valid-mode run of each driver returns, an
unknown-mode run of each driver with one effective step raises. -/
theorem C5_witness :
    (∃ r, run_mc ['H', 'H'] 1 1 "vshd" (1 / 2) (fun _ => idOracle) (fun _ => 0)
      (fun _ => false) = Except.ok r) ∧
    run_mc ['H', 'H'] 1 1 "nope" (1 / 2) (fun _ => idOracle) (fun _ => 0)
      (fun _ => false) = Except.error "mode de mouvements invalide" ∧
    (∃ r, run_remc ['H', 'H'] 1 4 (1 / 2) 3 10 "pull" (1 / 2) (fun _ _ => idOracle)
      (fun _ _ => 0) (fun _ _ => false) (fun _ _ _ => true) = Except.ok r) ∧
    run_remc ['H', 'H'] 1 4 (1 / 2) 3 10 "nope" (1 / 2) (fun _ _ => idOracle)
      (fun _ _ => 0) (fun _ _ => false) (fun _ _ _ => true) =
      Except.error "mode de mouvements invalide" :=
  ⟨C5_amended_only_unknown_mode_fails.1 ['H', 'H'] 1 1 "vshd" (1 / 2)
      (fun _ => idOracle) (fun _ => 0) (fun _ => false) (Or.inl rfl) (by decide),
   C5_amended_only_unknown_mode_fails.2.1 ['H', 'H'] 1 1 "nope" (1 / 2)
      (fun _ => idOracle) (fun _ => 0) (fun _ => false) (by decide) (by decide)
      (by decide) (by decide),
   C5_amended_only_unknown_mode_fails.2.2.2.1 ['H', 'H'] 1 4 (1 / 2) 3 10 "pull"
      (1 / 2) (fun _ _ => idOracle) (fun _ _ => 0) (fun _ _ => false)
      (fun _ _ _ => true) (Or.inr (Or.inl rfl)) (by decide) (by decide),
   C5_amended_only_unknown_mode_fails.2.2.2.2.1 ['H', 'H'] 1 4 (1 / 2) 3 10 "nope"
      (1 / 2) (fun _ _ => idOracle) (fun _ _ => 0) (fun _ _ => false)
      (fun _ _ _ => true) (by decide) (by decide) (by decide) (by decide)⟩

/-- C6: one exchange of the sweep at pair (i, j = i+1): the decision quantity
is Δ = (1/T_j − 1/T_i)(E_i − E_j); with the code's rule (uniform draw
u ∈ [0,1) against `1.0 if Δ ≥ 0 else exp(Δ)`) the pair is always accepted
when Δ ≥ 0; an accepted exchange swaps exactly (C_i, E_i) ↔ (C_j, E_j) and
leaves the temperature array and every other replica unchanged; a rejected
exchange changes nothing. -/
theorem C6_exchange_pair (exAcc : Nat → ℚ → Bool) (u : Nat → ℝ) (a : ReplicaArrays)
    (i : Nat) (hu : ∀ k, 0 ≤ u k ∧ u k < 1)
    (hacc : ∀ k δ, exAcc k δ = true ↔
      u k < (if 0 ≤ δ then 1 else Real.exp ((δ : ℝ)))) :
    (exchangePair exAcc i a).ts = a.ts ∧
    (0 ≤ (1 / a.ts.getD (i + 1) 0 - 1 / a.ts.getD i 0) *
        ((a.Es.getD i 0 : ℚ) - (a.Es.getD (i + 1) 0 : ℚ)) →
      exAcc i ((1 / a.ts.getD (i + 1) 0 - 1 / a.ts.getD i 0) *
        ((a.Es.getD i 0 : ℚ) - (a.Es.getD (i + 1) 0 : ℚ))) = true) ∧
    (exAcc i ((1 / a.ts.getD (i + 1) 0 - 1 / a.ts.getD i 0) *
        ((a.Es.getD i 0 : ℚ) - (a.Es.getD (i + 1) 0 : ℚ))) = true →
      (exchangePair exAcc i a).cs =
        (a.cs.set i (a.cs.getD (i + 1) [])).set (i + 1) (a.cs.getD i []) ∧
      (exchangePair exAcc i a).Es =
        (a.Es.set i (a.Es.getD (i + 1) 0)).set (i + 1) (a.Es.getD i 0) ∧
      ∀ k, k ≠ i → k ≠ i + 1 →
        (exchangePair exAcc i a).cs.getD k [] = a.cs.getD k [] ∧
        (exchangePair exAcc i a).Es.getD k 0 = a.Es.getD k 0) ∧
    (exAcc i ((1 / a.ts.getD (i + 1) 0 - 1 / a.ts.getD i 0) *
        ((a.Es.getD i 0 : ℚ) - (a.Es.getD (i + 1) 0 : ℚ))) = false →
      exchangePair exAcc i a = a) := by
  have hred : exchangePair exAcc i a =
      (if exAcc i ((1 / a.ts.getD (i + 1) 0 - 1 / a.ts.getD i 0) *
          ((a.Es.getD i 0 : ℚ) - (a.Es.getD (i + 1) 0 : ℚ))) then
        { a with cs := (a.cs.set i (a.cs.getD (i + 1) [])).set (i + 1) (a.cs.getD i []),
                 Es := (a.Es.set i (a.Es.getD (i + 1) 0)).set (i + 1) (a.Es.getD i 0) }
      else a) := rfl
  refine ⟨?_, ?_, ?_, ?_⟩
  · rw [hred]
    by_cases hex : exAcc i ((1 / a.ts.getD (i + 1) 0 - 1 / a.ts.getD i 0) *
        ((a.Es.getD i 0 : ℚ) - (a.Es.getD (i + 1) 0 : ℚ))) = true
    · rw [if_pos hex]
    · rw [if_neg hex]
  · intro h0
    rw [hacc i _, if_pos h0]
    exact (hu i).2
  · intro hex
    rw [hred, if_pos hex]
    refine ⟨rfl, rfl, ?_⟩
    intro k hk1 hk2
    constructor
    · show ((a.cs.set i (a.cs.getD (i + 1) [])).set (i + 1) (a.cs.getD i [])).getD k [] =
        a.cs.getD k []
      rw [getD_set_ne _ _ _ _ _ hk2, getD_set_ne _ _ _ _ _ hk1]
    · show ((a.Es.set i (a.Es.getD (i + 1) 0)).set (i + 1) (a.Es.getD i 0)).getD k 0 =
        a.Es.getD k 0
      rw [getD_set_ne _ _ _ _ _ hk2, getD_set_ne _ _ _ _ _ hk1]
  · intro hex
    rw [hred, if_neg (by rw [hex]; exact Bool.false_ne_true)]

/-- Witness for C6: two replicas at T = 1, 2 with E = -1, 0. -/
theorem C6_witness :
    ((exchangePair (fun _ _ => true) 0
        (⟨[[(0, 0)], [(1, 1)]], [-1, 0], [1, 2]⟩ : ReplicaArrays)).ts =
      (⟨[[(0, 0)], [(1, 1)]], [-1, 0], [1, 2]⟩ : ReplicaArrays).ts) ∧
    (0 ≤ (1 / (⟨[[(0, 0)], [(1, 1)]], [-1, 0], [1, 2]⟩ : ReplicaArrays).ts.getD 1 0 -
          1 / (⟨[[(0, 0)], [(1, 1)]], [-1, 0], [1, 2]⟩ : ReplicaArrays).ts.getD 0 0) *
        (((⟨[[(0, 0)], [(1, 1)]], [-1, 0], [1, 2]⟩ : ReplicaArrays).Es.getD 0 0 : ℚ) -
          ((⟨[[(0, 0)], [(1, 1)]], [-1, 0], [1, 2]⟩ : ReplicaArrays).Es.getD 1 0 : ℚ)) →
      (fun (_ : Nat) (_ : ℚ) => true) 0
        ((1 / (⟨[[(0, 0)], [(1, 1)]], [-1, 0], [1, 2]⟩ : ReplicaArrays).ts.getD 1 0 -
          1 / (⟨[[(0, 0)], [(1, 1)]], [-1, 0], [1, 2]⟩ : ReplicaArrays).ts.getD 0 0) *
        (((⟨[[(0, 0)], [(1, 1)]], [-1, 0], [1, 2]⟩ : ReplicaArrays).Es.getD 0 0 : ℚ) -
          ((⟨[[(0, 0)], [(1, 1)]], [-1, 0], [1, 2]⟩ : ReplicaArrays).Es.getD 1 0 : ℚ))) =
        true) :=
  ⟨(C6_exchange_pair (fun _ _ => true) (fun _ => 0)
      ⟨[[(0, 0)], [(1, 1)]], [-1, 0], [1, 2]⟩ 0
      (fun _ => ⟨le_refl 0, zero_lt_one⟩)
      (fun k δ => ⟨fun _ => by
          by_cases h0 : (0 : ℚ) ≤ δ
          · rw [if_pos h0]
            exact zero_lt_one
          · rw [if_neg h0]
            exact Real.exp_pos _,
        fun _ => rfl⟩)).1,
   (C6_exchange_pair (fun _ _ => true) (fun _ => 0)
      ⟨[[(0, 0)], [(1, 1)]], [-1, 0], [1, 2]⟩ 0
      (fun _ => ⟨le_refl 0, zero_lt_one⟩)
      (fun k δ => ⟨fun _ => by
          by_cases h0 : (0 : ℚ) ≤ δ
          · rw [if_pos h0]
            exact zero_lt_one
          · rw [if_neg h0]
            exact Real.exp_pos _,
        fun _ => rfl⟩)).2.1⟩

/-- C7: both drivers return equally long energy and best-energy traces whose
length is the effective step count `min(steps, 10000)` (never above 10000),
and the best-energy trace is monotonically non-increasing. -/
theorem C7_trace_shape :
    (∀ (hp : List Char) (steps : Int) (temperature : ℚ) (mode : String) (rho : ℚ)
        (Ost : Nat → MoveOracle) (uCoin : Nat → ℚ) (uAcc : Nat → Bool) (r : MCResult),
      run_mc hp steps temperature mode rho Ost uCoin uAcc = Except.ok r →
      r.energies.length = r.best_energies.length ∧
      r.energies.length = (min steps 10000).toNat ∧ r.energies.length ≤ 10000 ∧
      List.Chain' (fun a b => b ≤ a) r.best_energies) ∧
    (∀ (hp : List Char) (steps nRepl : Int) (tmin tmax : ℚ) (exchangeEvery : Nat)
        (mode : String) (rho : ℚ) (Or : Nat → Nat → MoveOracle) (uCoin : Nat → Nat → ℚ)
        (uAcc : Nat → Nat → Bool) (exAcc : Nat → Nat → ℚ → Bool) (r : MCResult),
      run_remc hp steps nRepl tmin tmax exchangeEvery mode rho Or uCoin uAcc exAcc =
        Except.ok r →
      r.energies.length = r.best_energies.length ∧
      r.energies.length = (min steps 10000).toNat ∧ r.energies.length ≤ 10000 ∧
      List.Chain' (fun a b => b ≤ a) r.best_energies) := by
  constructor
  · intro hp steps temperature mode rho Ost uCoin uAcc r h
    obtain ⟨_, _, hlen, hlen2, _, hch, _⟩ := run_mc_ok_props h
    exact ⟨hlen2.symm, hlen, by omega, hch⟩
  · intro hp steps nRepl tmin tmax exchangeEvery mode rho Or uCoin uAcc exAcc r h
    obtain ⟨_, _, hlen, hlen2, _, hch, _⟩ := run_remc_ok_props h
    exact ⟨hlen2.symm, hlen, by omega, hch⟩

/-- Witness for C7 at the steps = 0 run. -/
theorem C7_witness :
    ((⟨initial_line 2, initial_line 2, [], [], 0⟩ : MCResult).energies.length =
      (⟨initial_line 2, initial_line 2, [], [], 0⟩ : MCResult).best_energies.length) ∧
    ((⟨initial_line 2, initial_line 2, [], [], 0⟩ : MCResult).energies.length =
      (min (0 : Int) 10000).toNat) ∧
    ((⟨initial_line 2, initial_line 2, [], [], 0⟩ : MCResult).energies.length ≤ 10000) ∧
    List.Chain' (fun a b => b ≤ a)
      (⟨initial_line 2, initial_line 2, [], [], 0⟩ : MCResult).best_energies :=
  C7_trace_shape.1 ['H', 'H'] 0 1 "vshd" (1 / 2) (fun _ => idOracle) (fun _ => 0)
    (fun _ => false) ⟨initial_line 2, initial_line 2, [], [], 0⟩ rfl

/-- C8: metropolis_accept is deterministically true for every ΔE ≤ 0, any
temperature and any draw; for ΔE > 0 it accepts exactly when the draw is
below exp(−ΔE / max(T, 1e-12)). -/
theorem C8_metropolis_rule :
    (∀ (dE : Int) (T u : ℝ), dE ≤ 0 → metropolis_accept dE T u) ∧
    (∀ (dE : Int) (T u : ℝ), 0 < dE →
      (metropolis_accept dE T u ↔ u < Real.exp (-(dE : ℝ) / max T (1 / 10 ^ 12)))) := by
  constructor
  · intro dE T u h
    unfold metropolis_accept
    rw [if_pos h]
    trivial
  · intro dE T u h
    unfold metropolis_accept
    rw [if_neg (by omega : ¬dE ≤ 0)]

/-- Witness for C8 at ΔE = -1. -/
theorem C8_witness : metropolis_accept (-1) 1 (1 / 2) :=
  C8_metropolis_rule.1 (-1) 1 (1 / 2) (by decide)
